import Mathlib

/-!
# fixedhashmap: a fixed-size open-addressing hash map

Shallow embedding of `fixedhashmap.go`.

* Go's `uint32` fields are natural numbers reduced modulo `2 ^ 32` wherever the
  source does arithmetic on them (`idx++`, `m.n++`, `m.n--`).
* Go's `interface{}` values are `Option V`, with `none` standing for `nil`.
* Go's `[]*element` is a list of optional elements, `none` standing for a `nil`
  pointer.  Every element is allocated by `Set` and owned by one slot, so the
  in-place updates of the source are list updates here.
* A run-time panic (index out of range, integer division by zero) is the
  result `Res.panic`; the `for` loop of `find` is run with fuel and reports
  `Res.fuelOut` if the fuel does not suffice.
* Go's `int` is taken to be 64 bits wide, so `int(idx)` keeps the value of
  the `uint32` index.
-/

namespace FixedHashMap

/-- Modulus of `uint32` arithmetic. -/
def U32 : Nat := 4294967296

/-- Result of running a piece of the program: a normal return, a run-time
panic, or a loop that was cut off because its fuel ran out. -/
inductive Res (α : Type) where
  | ret (a : α)
  | panic
  | fuelOut
deriving DecidableEq, Repr

/-- The Go struct `element`. -/
structure element (V : Type) where
  key : String
  value : Option V
  deleted : Bool
deriving DecidableEq, Repr

/-- The Go struct `fixedHashMap`. -/
structure fixedHashMap (V : Type) where
  els : List (Option (element V))
  n : Nat
  capacity : Nat
deriving DecidableEq, Repr

variable {V : Type}

/-- FNV-1a, 32 bit, over a list of bytes (Go's `hash/fnv` `New32a`). -/
def fnv32a (bytes : List Nat) : Nat :=
  bytes.foldl (fun h b => ((Nat.xor h b) * 16777619) % U32) 2166136261

/-- The function `hash` of the source. -/
def hash (s : String) : Nat :=
  fnv32a (s.toUTF8.toList.map UInt8.toNat)

/-- The function `New` of the source: `capacity` nil slots, `n = 0`. -/
def New (capacity : Nat) : fixedHashMap V :=
  { els := List.replicate capacity none, n := 0, capacity := capacity }

/-- Reading `els[pos]` for a Go `int` index: `none` is the index-out-of-range
panic. -/
def slot (els : List (Option (element V))) (pos : Int) : Option (Option (element V)) :=
  if pos < 0 then none else els[pos.toNat]?

/-- The `for m.els[idx] != nil` loop of `find`; one unit of fuel is one
evaluation of the loop condition followed by the loop body. -/
def findLoop (els : List (Option (element V))) (capacity : Nat) (key : String) (start : Nat) :
    Nat → Nat → Res Int
  | 0, _ => Res.fuelOut
  | fuel + 1, idx =>
    match els[idx]? with
    | none => Res.panic
    | some none => Res.ret (idx : Int)
    | some (some el) =>
      if el.key = key then Res.ret (idx : Int)
      else
        let idx1 := (idx + 1) % U32
        let idx2 := idx1 % capacity
        if idx2 = start then Res.ret (-1)
        else findLoop els capacity key start fuel idx2

/-- The method `find` of the source, for the hash function `hashFn`.  The loop
gets `capacity` units of fuel. -/
def fixedHashMap.find (m : fixedHashMap V) (hashFn : String → Nat) (key : String) : Res Int :=
  let h := hashFn key % U32
  if m.capacity = 0 then Res.panic
  else
    let idx := h % m.capacity
    let start := idx
    findLoop m.els m.capacity key start m.capacity idx

/-- The loop of `find` once more, also listing the indices at which
`m.els[idx]` is read, in the order of the reads (one per evaluation of the loop
condition; the body reads the same index). -/
def findLoopTrace (els : List (Option (element V))) (capacity : Nat) (key : String)
    (start : Nat) : Nat → Nat → Res Int × List Nat
  | 0, _ => (Res.fuelOut, [])
  | fuel + 1, idx =>
    match els[idx]? with
    | none => (Res.panic, [idx])
    | some none => (Res.ret (idx : Int), [idx])
    | some (some el) =>
      if el.key = key then (Res.ret (idx : Int), [idx])
      else
        let idx1 := (idx + 1) % U32
        let idx2 := idx1 % capacity
        if idx2 = start then (Res.ret (-1), [idx])
        else
          let r := findLoopTrace els capacity key start fuel idx2
          (r.1, idx :: r.2)

/-- The method `find` with the list of inspected indices. -/
def fixedHashMap.findTrace (m : fixedHashMap V) (hashFn : String → Nat) (key : String) :
    Res Int × List Nat :=
  let h := hashFn key % U32
  if m.capacity = 0 then (Res.panic, [])
  else
    let idx := h % m.capacity
    let start := idx
    findLoopTrace m.els m.capacity key start m.capacity idx

/-- The method `Set` of the source: the returned boolean and the table after
the call. -/
def fixedHashMap.Set (m : fixedHashMap V) (hashFn : String → Nat) (key : String)
    (value : Option V) : Res (Bool × fixedHashMap V) :=
  if m.n = m.capacity then Res.ret (false, m)
  else
    match m.find hashFn key with
    | Res.panic => Res.panic
    | Res.fuelOut => Res.fuelOut
    | Res.ret pos =>
      if pos = -1 then Res.ret (false, m)
      else
        match slot m.els pos with
        | none => Res.panic
        | some (some el) =>
          let el1 := { el with value := value }
          let el2 := { el1 with deleted := false }
          Res.ret (true, { m with els := m.els.set pos.toNat (some el2) })
        | some none =>
          let el : element V := { key := key, value := value, deleted := false }
          Res.ret (true, { m with els := m.els.set pos.toNat (some el), n := (m.n + 1) % U32 })

/-- The method `Get` of the source. -/
def fixedHashMap.Get (m : fixedHashMap V) (hashFn : String → Nat) (key : String) :
    Res (Option V) :=
  match m.find hashFn key with
  | Res.panic => Res.panic
  | Res.fuelOut => Res.fuelOut
  | Res.ret pos =>
    if pos = -1 then Res.ret none
    else
      match slot m.els pos with
      | none => Res.panic
      | some none => Res.ret none
      | some (some el) =>
        if el.deleted then Res.ret none
        else Res.ret el.value

/-- The method `Delete` of the source: the returned value and the table after
the call.  The returned value is read from the element after `deleted` and
`value` have been written, as in the source. -/
def fixedHashMap.Delete (m : fixedHashMap V) (hashFn : String → Nat) (key : String) :
    Res (Option V × fixedHashMap V) :=
  match m.find hashFn key with
  | Res.panic => Res.panic
  | Res.fuelOut => Res.fuelOut
  | Res.ret pos =>
    if pos = -1 then Res.ret (none, m)
    else
      match slot m.els pos with
      | none => Res.panic
      | some none => Res.ret (none, m)
      | some (some el) =>
        let el1 := { el with deleted := true }
        let el2 := { el1 with value := none }
        Res.ret (el2.value,
          { m with els := m.els.set pos.toNat (some el2), n := (m.n + U32 - 1) % U32 })

/-- The method `Load` of the source.  Both conversions `float64(uint32)` are
exact; the quotient is kept as an exact rational, which is meaningful for a
non-zero capacity only (Go yields NaN or an infinity for capacity `0`). -/
def fixedHashMap.Load (m : fixedHashMap V) : ℚ :=
  (m.n : ℚ) / (m.capacity : ℚ)

/-- A call of one of the four methods of the interface. -/
inductive Call (V : Type) where
  | Set (key : String) (value : Option V)
  | Get (key : String)
  | Delete (key : String)
  | Load
deriving DecidableEq, Repr

/-- What a call returned. -/
inductive Answer (V : Type) where
  | bool (b : Bool)
  | value (v : Option V)
  | load (q : ℚ)
deriving DecidableEq, Repr

/-- One call on a table: what it returned and the table after it. -/
def step (hashFn : String → Nat) (m : fixedHashMap V) : Call V → Res (Answer V × fixedHashMap V)
  | Call.Set key value =>
    match m.Set hashFn key value with
    | Res.ret (b, m') => Res.ret (Answer.bool b, m')
    | Res.panic => Res.panic
    | Res.fuelOut => Res.fuelOut
  | Call.Get key =>
    match m.Get hashFn key with
    | Res.ret v => Res.ret (Answer.value v, m)
    | Res.panic => Res.panic
    | Res.fuelOut => Res.fuelOut
  | Call.Delete key =>
    match m.Delete hashFn key with
    | Res.ret (v, m') => Res.ret (Answer.value v, m')
    | Res.panic => Res.panic
    | Res.fuelOut => Res.fuelOut
  | Call.Load => Res.ret (Answer.load m.Load, m)

/-- A sequence of calls, first call first: the answers in order and the final
table. -/
def run (hashFn : String → Nat) (m : fixedHashMap V) : List (Call V) → Res (List (Answer V) × fixedHashMap V)
  | [] => Res.ret ([], m)
  | c :: cs =>
    match step hashFn m c with
    | Res.ret (a, m') =>
      match run hashFn m' cs with
      | Res.ret (as, m'') => Res.ret (a :: as, m'')
      | Res.panic => Res.panic
      | Res.fuelOut => Res.fuelOut
    | Res.panic => Res.panic
    | Res.fuelOut => Res.fuelOut

/-- Tables reachable from `New c`, `0 < c < 2 ^ 32`, by a sequence of calls. -/
def Reachable (hashFn : String → Nat) (m : fixedHashMap V) : Prop :=
  ∃ (c : Nat) (cs : List (Call V)) (as : List (Answer V)),
    0 < c ∧ c < U32 ∧ run hashFn (New c) cs = Res.ret (as, m)

/-! ## Specification vocabulary -/

/-- The index inspected after `d` steps of linear probing from `start`. -/
def probe (start capacity d : Nat) : Nat := (start + d) % capacity

/-- Slot `i` holds an element whose key differs from `key`: the loop of `find`
moves on. -/
def Skips (els : List (Option (element V))) (key : String) (i : Nat) : Prop :=
  ∃ e, els[i]? = some (some e) ∧ e.key ≠ key

/-- Slot `i` is nil or holds `key`: the loop of `find` returns `i`. -/
def Stops (els : List (Option (element V))) (key : String) (i : Nat) : Prop :=
  els[i]? = some none ∨ ∃ e, els[i]? = some (some e) ∧ e.key = key


/-- A table as the Go types and `New` make it: one slot per unit of capacity
and a positive `uint32` capacity. -/
structure WF (m : fixedHashMap V) : Prop where
  len : m.els.length = m.capacity
  pos : 0 < m.capacity
  lt : m.capacity < U32

/-- The index at which the probe for `key` starts. -/
def home (hashFn : String → Nat) (m : fixedHashMap V) (key : String) : Nat :=
  hashFn key % U32 % m.capacity

/-- Table `m'` is `m` with slot `i` overwritten by the element `e'` (the
count `n` may differ). -/
def Overwrites (m m' : fixedHashMap V) (i : Nat) (e' : element V) : Prop :=
  m'.capacity = m.capacity ∧ m'.els = m.els.set i (some e')

/-- No slot holds `key`. -/
def NoKey (els : List (Option (element V))) (key : String) : Prop :=
  ∀ (i : Nat) (e : element V), els[i]? = some (some e) → e.key ≠ key

/-- Some slot holds `key` and is not marked deleted. -/
def Live (els : List (Option (element V))) (key : String) : Prop :=
  ∃ (i : Nat) (e : element V), els[i]? = some (some e) ∧ e.key = key ∧ e.deleted = false

/-- Every slot between the home index of a stored key and the slot holding
it is taken: slots are never set back to nil. -/
def Chain (hashFn : String → Nat) (m : fixedHashMap V) : Prop :=
  ∀ (i : Nat) (e : element V) (d : Nat), m.els[i]? = some (some e) → d < m.capacity →
    probe (home hashFn m e.key) m.capacity d = i →
    ∀ d', d' < d → ∃ e', m.els[probe (home hashFn m e.key) m.capacity d']? = some (some e')

/-- The invariant of reachable tables used below. -/
structure Inv (hashFn : String → Nat) (m : fixedHashMap V) : Prop where
  wf : WF m
  chain : Chain hashFn m

/-- Some slot holds `key` (deleted or not). -/
def HasKey (els : List (Option (element V))) (key : String) : Prop :=
  ∃ (i : Nat) (e : element V), els[i]? = some (some e) ∧ e.key = key

/-- No two slots hold the same key. -/
def Uniq (els : List (Option (element V))) : Prop :=
  ∀ (i j : Nat) (e1 e2 : element V), els[i]? = some (some e1) → els[j]? = some (some e2) →
    e1.key = e2.key → i = j

/-- The calls `Delete k` for the keys of a list, in order. -/
def deleteCalls (ks : List String) : List (Call V) :=
  ks.map (fun k => Call.Delete k)

/-- Number of non-nil slots. -/
def occupied (els : List (Option (element V))) : Nat :=
  (els.filter Option.isSome).length

/-- The calls `Set k v` for the pairs of a list, in order. -/
def setCalls (kvs : List (String × Option V)) : List (Call V) :=
  kvs.map (fun p => Call.Set p.1 p.2)

/-! ## Probe positions -/

theorem probe_eq {s cap d : Nat} (hs : s < cap) (hd : d ≤ cap) :
    probe s cap d = if s + d < cap then s + d else s + d - cap := by
  unfold probe
  split_ifs with h
  · exact Nat.mod_eq_of_lt h
  · rw [Nat.mod_eq_sub_mod (by omega)]
    exact Nat.mod_eq_of_lt (by omega)

theorem probe_lt {s cap : Nat} (hcap : 0 < cap) (d : Nat) : probe s cap d < cap :=
  Nat.mod_lt _ hcap

theorem probe_zero {s cap : Nat} (hs : s < cap) : probe s cap 0 = s := by
  rw [probe_eq hs (by omega)]; simp [hs]

theorem probe_succ {s cap d : Nat} (hU : cap < U32) (hd : d < cap) :
    (probe s cap d + 1) % U32 % cap = probe s cap (d + 1) := by
  have h1 : probe s cap d < cap := probe_lt (by omega) d
  rw [Nat.mod_eq_of_lt (by omega : probe s cap d + 1 < U32)]
  unfold probe
  rw [Nat.mod_add_mod, Nat.add_assoc]

theorem probe_ne_start {s cap d : Nat} (hs : s < cap) (h0 : 0 < d) (hd : d < cap) :
    probe s cap d ≠ s := by
  rw [probe_eq hs (by omega)]
  split_ifs <;> omega

theorem probe_cap {s cap : Nat} (hs : s < cap) : probe s cap cap = s := by
  rw [probe_eq hs (by omega)]
  split_ifs <;> omega

theorem probe_inj {s cap d1 d2 : Nat} (hs : s < cap) (h1 : d1 < cap) (h2 : d2 < cap)
    (h : probe s cap d1 = probe s cap d2) : d1 = d2 := by
  rw [probe_eq hs (by omega), probe_eq hs (by omega)] at h
  split_ifs at h <;> omega

theorem probe_surj {s cap i : Nat} (hs : s < cap) (hi : i < cap) :
    ∃ d, d < cap ∧ probe s cap d = i := by
  by_cases h : s ≤ i
  · refine ⟨i - s, by omega, ?_⟩
    rw [probe_eq hs (by omega)]
    split_ifs <;> omega
  · refine ⟨i + cap - s, by omega, ?_⟩
    rw [probe_eq hs (by omega)]
    split_ifs <;> omega

/-! ## The loop of `find` -/

theorem findLoop_stops {els : List (Option (element V))} {cap : Nat} {key : String} {start : Nat}
    (hs : start < cap) (hU : cap < U32) :
    ∀ (j d fuel : Nat), d + j < cap → j < fuel →
      (∀ d', d ≤ d' → d' < d + j → Skips els key (probe start cap d')) →
      Stops els key (probe start cap (d + j)) →
      findLoop els cap key start fuel (probe start cap d)
        = Res.ret ((probe start cap (d + j) : Nat) : Int) := by
  intro j
  induction j with
  | zero =>
    intro d fuel _ hf _ hstop
    obtain ⟨f, rfl⟩ : ∃ f, fuel = f + 1 := ⟨fuel - 1, by omega⟩
    rw [Nat.add_zero] at hstop ⊢
    rcases hstop with h | ⟨e, h, hk⟩
    · simp [findLoop, h]
    · simp [findLoop, h, hk]
  | succ j ih =>
    intro d fuel hd hf hskip hstop
    obtain ⟨f, rfl⟩ : ∃ f, fuel = f + 1 := ⟨fuel - 1, by omega⟩
    obtain ⟨e, he, hk⟩ := hskip d (Nat.le_refl d) (by omega)
    have hne : probe start cap (d + 1) ≠ start := probe_ne_start hs (by omega) (by omega)
    have hnext := ih (d + 1) f (by omega) (by omega)
      (fun d' h1 h2 => hskip d' (by omega) (by omega))
      (by rw [show d + 1 + j = d + (j + 1) by omega]; exact hstop)
    rw [show d + 1 + j = d + (j + 1) by omega] at hnext
    simp only [findLoop, he, hk, if_false, probe_succ hU (by omega : d < cap), hne]
    exact hnext

theorem findLoop_exhausts {els : List (Option (element V))} {cap : Nat} {key : String}
    {start : Nat} (hs : start < cap) (hU : cap < U32) :
    ∀ (j d fuel : Nat), d + j + 1 = cap → j < fuel →
      (∀ d', d ≤ d' → d' < cap → Skips els key (probe start cap d')) →
      findLoop els cap key start fuel (probe start cap d) = Res.ret (-1) := by
  intro j
  induction j with
  | zero =>
    intro d fuel hd hf hskip
    obtain ⟨f, rfl⟩ : ∃ f, fuel = f + 1 := ⟨fuel - 1, by omega⟩
    obtain ⟨e, he, hk⟩ := hskip d (Nat.le_refl d) (by omega)
    have hnext : probe start cap (d + 1) = start := by
      rw [show d + 1 = cap by omega]; exact probe_cap hs
    simp [findLoop, he, hk, probe_succ hU (by omega : d < cap), hnext]
  | succ j ih =>
    intro d fuel hd hf hskip
    obtain ⟨f, rfl⟩ : ∃ f, fuel = f + 1 := ⟨fuel - 1, by omega⟩
    obtain ⟨e, he, hk⟩ := hskip d (Nat.le_refl d) (by omega)
    have hne : probe start cap (d + 1) ≠ start := probe_ne_start hs (by omega) (by omega)
    have hnext := ih (d + 1) f (by omega) (by omega) (fun d' h1 h2 => hskip d' (by omega) h2)
    simp only [findLoop, he, hk, if_false, probe_succ hU (by omega : d < cap), hne]
    exact hnext

/-! ## Well-formed tables and the result of `find` -/

theorem home_lt (hashFn : String → Nat) {m : fixedHashMap V} (hm : WF m) (key : String) :
    home hashFn m key < m.capacity :=
  Nat.mod_lt _ hm.pos

theorem skips_or_stops {els : List (Option (element V))} (key : String) {i : Nat}
    (hi : i < els.length) : Skips els key i ∨ Stops els key i := by
  have h := List.getElem?_eq_getElem hi
  rcases hx : els[i] with _ | e
  · exact Or.inr (Or.inl (by rw [h, hx]))
  · by_cases hk : e.key = key
    · exact Or.inr (Or.inr ⟨e, by rw [h, hx], hk⟩)
    · exact Or.inl ⟨e, by rw [h, hx], hk⟩

theorem find_of_stops {m : fixedHashMap V} (hm : WF m) (hashFn : String → Nat) (key : String)
    {d : Nat} (hd : d < m.capacity)
    (hskip : ∀ d', d' < d → Skips m.els key (probe (home hashFn m key) m.capacity d'))
    (hstop : Stops m.els key (probe (home hashFn m key) m.capacity d)) :
    m.find hashFn key = Res.ret ((probe (home hashFn m key) m.capacity d : Nat) : Int) := by
  have hs := home_lt hashFn hm key
  have h := @findLoop_stops V m.els m.capacity key _ hs hm.lt d 0 m.capacity
    (by omega) hd (fun d' _ h2 => hskip d' (by omega)) (by rw [Nat.zero_add]; exact hstop)
  rw [probe_zero hs, Nat.zero_add] at h
  have hc : m.capacity ≠ 0 := Nat.pos_iff_ne_zero.mp hm.pos
  simp only [fixedHashMap.find, hc, if_false]
  exact h

theorem find_of_skips {m : fixedHashMap V} (hm : WF m) (hashFn : String → Nat) (key : String)
    (hskip : ∀ i, i < m.capacity → Skips m.els key i) :
    m.find hashFn key = Res.ret (-1) := by
  have hs := home_lt hashFn hm key
  have h := @findLoop_exhausts V m.els m.capacity key _ hs hm.lt (m.capacity - 1) 0
    m.capacity (by have := hm.pos; omega) (by have := hm.pos; omega)
    (fun d' _ _ => hskip _ (probe_lt hm.pos d'))
  rw [probe_zero hs] at h
  have hc : m.capacity ≠ 0 := Nat.pos_iff_ne_zero.mp hm.pos
  simp only [fixedHashMap.find, hc, if_false]
  exact h

/-- The three ways a probe can end on a well-formed table: at the slot holding
the key, at a nil slot, or with `-1` after every slot was found taken by
another key. -/
theorem find_cases {m : fixedHashMap V} (hm : WF m) (hashFn : String → Nat) (key : String) :
    (∃ d e, d < m.capacity
        ∧ (∀ d', d' < d → Skips m.els key (probe (home hashFn m key) m.capacity d'))
        ∧ m.els[probe (home hashFn m key) m.capacity d]? = some (some e) ∧ e.key = key
        ∧ m.find hashFn key = Res.ret ((probe (home hashFn m key) m.capacity d : Nat) : Int))
    ∨ (∃ d, d < m.capacity
        ∧ (∀ d', d' < d → Skips m.els key (probe (home hashFn m key) m.capacity d'))
        ∧ m.els[probe (home hashFn m key) m.capacity d]? = some none
        ∧ m.find hashFn key = Res.ret ((probe (home hashFn m key) m.capacity d : Nat) : Int))
    ∨ ((∀ i, i < m.capacity → Skips m.els key i) ∧ m.find hashFn key = Res.ret (-1)) := by
  classical
  by_cases h : ∃ d, d < m.capacity ∧ Stops m.els key (probe (home hashFn m key) m.capacity d)
  · have hd := Nat.find_spec h
    have hmin : ∀ d', d' < Nat.find h →
        Skips m.els key (probe (home hashFn m key) m.capacity d') := by
      intro d' hlt
      have hnot := Nat.find_min h hlt
      have hi : probe (home hashFn m key) m.capacity d' < m.els.length := by
        rw [hm.len]; exact probe_lt hm.pos d'
      rcases skips_or_stops key hi with h1 | h1
      · exact h1
      · exact absurd ⟨by omega, h1⟩ hnot
    have hf := find_of_stops hm hashFn key hd.1 hmin hd.2
    rcases hd.2 with h0 | ⟨e, he, hk⟩
    · exact Or.inr (Or.inl ⟨Nat.find h, hd.1, hmin, h0, hf⟩)
    · exact Or.inl ⟨Nat.find h, e, hd.1, hmin, he, hk, hf⟩
  · have hall : ∀ i, i < m.capacity → Skips m.els key i := by
      intro i hi
      obtain ⟨d, hd, rfl⟩ := probe_surj (home_lt hashFn hm key) hi
      rcases skips_or_stops key (by rw [hm.len]; exact hi) with h1 | h1
      · exact h1
      · exact absurd ⟨d, hd, h1⟩ h
    exact Or.inr (Or.inr ⟨hall, find_of_skips hm hashFn key hall⟩)

/-! ## The operations, once the result of `find` is known -/

theorem slot_natCast (els : List (Option (element V))) (i : Nat) :
    slot els ((i : Nat) : Int) = els[i]? := by
  simp [slot]

theorem natCast_ne_neg_one (i : Nat) : ((i : Nat) : Int) ≠ -1 := by omega

theorem Get_found {m : fixedHashMap V} {hashFn : String → Nat} {key : String} {i : Nat}
    {e : element V} (hf : m.find hashFn key = Res.ret ((i : Nat) : Int))
    (hs : m.els[i]? = some (some e)) :
    m.Get hashFn key = Res.ret (if e.deleted then none else e.value) := by
  simp only [fixedHashMap.Get, hf, natCast_ne_neg_one, if_false, slot_natCast, hs]
  split_ifs <;> rfl

theorem Get_nil {m : fixedHashMap V} {hashFn : String → Nat} {key : String} {i : Nat}
    (hf : m.find hashFn key = Res.ret ((i : Nat) : Int)) (hs : m.els[i]? = some none) :
    m.Get hashFn key = Res.ret none := by
  simp only [fixedHashMap.Get, hf, natCast_ne_neg_one, if_false, slot_natCast, hs]

theorem Get_full {m : fixedHashMap V} {hashFn : String → Nat} {key : String}
    (hf : m.find hashFn key = Res.ret (-1)) : m.Get hashFn key = Res.ret none := by
  simp [fixedHashMap.Get, hf]

theorem Set_maxLoad {m : fixedHashMap V} (hashFn : String → Nat) (key : String)
    (value : Option V) (hn : m.n = m.capacity) :
    m.Set hashFn key value = Res.ret (false, m) := by
  simp [fixedHashMap.Set, hn]

theorem Set_found {m : fixedHashMap V} {hashFn : String → Nat} {key : String} {i : Nat}
    {e : element V} (value : Option V) (hn : m.n ≠ m.capacity)
    (hf : m.find hashFn key = Res.ret ((i : Nat) : Int)) (hs : m.els[i]? = some (some e)) :
    m.Set hashFn key value = Res.ret (true,
      { m with els := m.els.set i (some { key := e.key, value := value, deleted := false }) }) := by
  simp only [fixedHashMap.Set, hn, hf, natCast_ne_neg_one, if_false, slot_natCast, hs,
    Int.toNat_ofNat]

theorem Set_nil {m : fixedHashMap V} {hashFn : String → Nat} {key : String} {i : Nat}
    (value : Option V) (hn : m.n ≠ m.capacity)
    (hf : m.find hashFn key = Res.ret ((i : Nat) : Int)) (hs : m.els[i]? = some none) :
    m.Set hashFn key value = Res.ret (true,
      { m with els := m.els.set i (some { key := key, value := value, deleted := false }),
               n := (m.n + 1) % U32 }) := by
  simp only [fixedHashMap.Set, hn, hf, natCast_ne_neg_one, if_false, slot_natCast, hs,
    Int.toNat_ofNat]

theorem Set_full {m : fixedHashMap V} {hashFn : String → Nat} {key : String}
    (value : Option V) (hf : m.find hashFn key = Res.ret (-1)) :
    m.Set hashFn key value = Res.ret (false, m) := by
  by_cases hn : m.n = m.capacity
  · exact Set_maxLoad hashFn key value hn
  · simp [fixedHashMap.Set, hn, hf]

theorem Delete_found {m : fixedHashMap V} {hashFn : String → Nat} {key : String} {i : Nat}
    {e : element V} (hf : m.find hashFn key = Res.ret ((i : Nat) : Int))
    (hs : m.els[i]? = some (some e)) :
    m.Delete hashFn key = Res.ret (none,
      { m with els := m.els.set i (some { key := e.key, value := none, deleted := true }),
               n := (m.n + U32 - 1) % U32 }) := by
  simp only [fixedHashMap.Delete, hf, natCast_ne_neg_one, if_false, slot_natCast, hs,
    Int.toNat_ofNat]

theorem Delete_nil {m : fixedHashMap V} {hashFn : String → Nat} {key : String} {i : Nat}
    (hf : m.find hashFn key = Res.ret ((i : Nat) : Int)) (hs : m.els[i]? = some none) :
    m.Delete hashFn key = Res.ret (none, m) := by
  simp only [fixedHashMap.Delete, hf, natCast_ne_neg_one, if_false, slot_natCast, hs]

theorem Delete_full {m : fixedHashMap V} {hashFn : String → Nat} {key : String}
    (hf : m.find hashFn key = Res.ret (-1)) : m.Delete hashFn key = Res.ret (none, m) := by
  simp [fixedHashMap.Delete, hf]

/-! ## Overwriting one slot -/

theorem WF_overwrite {m m' : fixedHashMap V} {i : Nat} {e' : element V} (hm : WF m)
    (how : Overwrites m m' i e') : WF m' := by
  obtain ⟨hc, he⟩ := how
  refine ⟨?_, ?_, ?_⟩
  · rw [he, hc, List.length_set, hm.len]
  · rw [hc]; exact hm.pos
  · rw [hc]; exact hm.lt

theorem home_overwrite {m m' : fixedHashMap V} {i : Nat} {e' : element V}
    (how : Overwrites m m' i e') (hashFn : String → Nat) (key : String) :
    home hashFn m' key = home hashFn m key := by
  unfold home
  rw [how.1]

theorem Skips_overwrite {m m' : fixedHashMap V} {i : Nat} {e' : element V}
    (how : Overwrites m m' i e') {key : String} (hk : e'.key ≠ key) {j : Nat}
    (h : Skips m.els key j) : Skips m'.els key j := by
  obtain ⟨e, he, hne⟩ := h
  rw [how.2]
  by_cases hij : i = j
  · subst hij
    have hlt : i < m.els.length := (List.getElem?_eq_some.mp he).1
    exact ⟨e', by rw [List.getElem?_set_self hlt], hk⟩
  · exact ⟨e, by rw [List.getElem?_set_ne hij]; exact he, hne⟩

theorem getElem?_overwrite_ne {m m' : fixedHashMap V} {i : Nat} {e' : element V}
    (how : Overwrites m m' i e') {j : Nat} (hij : i ≠ j) : m'.els[j]? = m.els[j]? := by
  rw [how.2, List.getElem?_set_ne hij]

theorem getElem?_overwrite_self {m m' : fixedHashMap V} {i : Nat} {e' : element V}
    (hm : WF m) (how : Overwrites m m' i e') (hi : i < m.capacity) :
    m'.els[i]? = some (some e') := by
  rw [how.2, List.getElem?_set_self (by rw [hm.len]; exact hi)]

/-- After the slot at which the probe for `key` stopped is overwritten by an
element with that key, the probe stops there again. -/
theorem find_overwrite_key {m m' : fixedHashMap V} (hm : WF m) (hashFn : String → Nat)
    {key : String} {d : Nat} {e' : element V} (hd : d < m.capacity)
    (hskip : ∀ d', d' < d → Skips m.els key (probe (home hashFn m key) m.capacity d'))
    (how : Overwrites m m' (probe (home hashFn m key) m.capacity d) e') (hk : e'.key = key) :
    m'.find hashFn key = Res.ret ((probe (home hashFn m key) m.capacity d : Nat) : Int)
      ∧ m'.els[probe (home hashFn m key) m.capacity d]? = some (some e') := by
  have hm' := WF_overwrite hm how
  have hself := getElem?_overwrite_self hm how (probe_lt hm.pos d)
  have hs := home_lt hashFn hm key
  refine ⟨?_, hself⟩
  have h := find_of_stops hm' hashFn key (d := d) (by rw [how.1]; exact hd)
    (by
      intro d' hd'
      rw [home_overwrite how, how.1]
      obtain ⟨e, he, hne⟩ := hskip d' hd'
      have hne' : probe (home hashFn m key) m.capacity d
          ≠ probe (home hashFn m key) m.capacity d' := by
        intro heq
        have := probe_inj hs hd (by omega) heq
        omega
      exact ⟨e, by rw [getElem?_overwrite_ne how hne']; exact he, hne⟩)
    (by
      rw [home_overwrite how, how.1]
      exact Or.inr ⟨e', hself, hk⟩)
  rw [home_overwrite how, how.1] at h
  exact h

theorem Get_none_of_noKey {m : fixedHashMap V} (hm : WF m) (hashFn : String → Nat)
    {key : String} (h : NoKey m.els key) : m.Get hashFn key = Res.ret none := by
  rcases find_cases hm hashFn key with ⟨d, e, _, _, he, hk, _⟩ | ⟨d, _, _, he, hf⟩ | ⟨_, hf⟩
  · exact absurd hk (h _ e he)
  · exact Get_nil hf he
  · exact Get_full hf

/-- Overwriting slot `i` by an element with another key does not change
`Get key`, provided the probe for `key` did not stop at slot `i`. -/
theorem Get_overwrite_of_ne {m m' : fixedHashMap V} (hm : WF m) (hashFn : String → Nat)
    {key : String} {i : Nat} {e' : element V} (how : Overwrites m m' i e')
    (hk : e'.key ≠ key)
    (hne : ∀ d, d < m.capacity →
      (∀ d', d' < d → Skips m.els key (probe (home hashFn m key) m.capacity d')) →
      Stops m.els key (probe (home hashFn m key) m.capacity d) →
      i ≠ probe (home hashFn m key) m.capacity d) :
    m'.Get hashFn key = m.Get hashFn key := by
  have hm' := WF_overwrite hm how
  rcases find_cases hm hashFn key with ⟨d, e, hd, hskip, he, hke, hf⟩ | ⟨d, hd, hskip, he, hf⟩
    | ⟨hall, hf⟩
  · have hi := hne d hd hskip (Or.inr ⟨e, he, hke⟩)
    have he' : m'.els[probe (home hashFn m' key) m'.capacity d]? = some (some e) := by
      rw [home_overwrite how, how.1, getElem?_overwrite_ne how hi]; exact he
    have hf' := find_of_stops hm' hashFn key (d := d) (by rw [how.1]; exact hd)
      (by
        intro d' hd'
        rw [home_overwrite how, how.1]
        exact Skips_overwrite how hk (hskip d' hd'))
      (Or.inr ⟨e, he', hke⟩)
    rw [Get_found hf he, Get_found hf' he']
  · have hi := hne d hd hskip (Or.inl he)
    have he' : m'.els[probe (home hashFn m' key) m'.capacity d]? = some none := by
      rw [home_overwrite how, how.1, getElem?_overwrite_ne how hi]; exact he
    have hf' := find_of_stops hm' hashFn key (d := d) (by rw [how.1]; exact hd)
      (by
        intro d' hd'
        rw [home_overwrite how, how.1]
        exact Skips_overwrite how hk (hskip d' hd'))
      (Or.inl he')
    rw [Get_nil hf he, Get_nil hf' he']
  · have hf' := find_of_skips hm' hashFn key
      (by
        intro j hj
        rw [how.1] at hj
        exact Skips_overwrite how hk (hall j hj))
    rw [Get_full hf, Get_full hf']

/-! ## What `Set` and `Delete` do to a well-formed table -/

theorem Set_cases {m : fixedHashMap V} (hm : WF m) (hashFn : String → Nat) (key : String)
    (value : Option V) :
    m.Set hashFn key value = Res.ret (false, m)
    ∨ ∃ d m', d < m.capacity
        ∧ (∀ d', d' < d → Skips m.els key (probe (home hashFn m key) m.capacity d'))
        ∧ m.n ≠ m.capacity
        ∧ m.Set hashFn key value = Res.ret (true, m')
        ∧ Overwrites m m' (probe (home hashFn m key) m.capacity d)
            { key := key, value := value, deleted := false }
        ∧ ((∃ e, m.els[probe (home hashFn m key) m.capacity d]? = some (some e)
              ∧ e.key = key ∧ m'.n = m.n)
          ∨ (m.els[probe (home hashFn m key) m.capacity d]? = some none
              ∧ m'.n = (m.n + 1) % U32)) := by
  by_cases hn : m.n = m.capacity
  · exact Or.inl (Set_maxLoad hashFn key value hn)
  rcases find_cases hm hashFn key with ⟨d, e, hd, hskip, he, hke, hf⟩ | ⟨d, hd, hskip, he, hf⟩
    | ⟨_, hf⟩
  · refine Or.inr ⟨d, _, hd, hskip, hn, Set_found value hn hf he, ⟨rfl, ?_⟩,
      Or.inl ⟨e, he, hke, rfl⟩⟩
    simp only [hke]
  · exact Or.inr ⟨d, _, hd, hskip, hn, Set_nil value hn hf he, ⟨rfl, rfl⟩, Or.inr ⟨he, rfl⟩⟩
  · exact Or.inl (Set_full value hf)

theorem Delete_cases {m : fixedHashMap V} (hm : WF m) (hashFn : String → Nat) (key : String) :
    (m.Delete hashFn key = Res.ret (none, m) ∧ m.Get hashFn key = Res.ret none)
    ∨ ∃ d e m', d < m.capacity
        ∧ (∀ d', d' < d → Skips m.els key (probe (home hashFn m key) m.capacity d'))
        ∧ m.els[probe (home hashFn m key) m.capacity d]? = some (some e) ∧ e.key = key
        ∧ m.Delete hashFn key = Res.ret (none, m')
        ∧ Overwrites m m' (probe (home hashFn m key) m.capacity d)
            { key := key, value := none, deleted := true }
        ∧ m'.n = (m.n + U32 - 1) % U32 := by
  rcases find_cases hm hashFn key with ⟨d, e, hd, hskip, he, hke, hf⟩ | ⟨d, hd, hskip, he, hf⟩
    | ⟨_, hf⟩
  · refine Or.inr ⟨d, e, _, hd, hskip, he, hke, Delete_found hf he, ⟨rfl, ?_⟩, rfl⟩
    simp only [hke]
  · exact Or.inl ⟨Delete_nil hf he, Get_nil hf he⟩
  · exact Or.inl ⟨Delete_full hf, Get_full hf⟩

theorem Get_total {m : fixedHashMap V} (hm : WF m) (hashFn : String → Nat) (key : String) :
    ∃ v, m.Get hashFn key = Res.ret v := by
  rcases find_cases hm hashFn key with ⟨d, e, _, _, he, _, hf⟩ | ⟨d, _, _, he, hf⟩ | ⟨_, hf⟩
  · exact ⟨_, Get_found hf he⟩
  · exact ⟨_, Get_nil hf he⟩
  · exact ⟨_, Get_full hf⟩

/-! ## The probe-chain invariant of reachable tables -/

theorem noKey_of_nil {m : fixedHashMap V} {hashFn : String → Nat} (hm : Inv hashFn m)
    {key : String} {d : Nat} (hd : d < m.capacity)
    (hskip : ∀ d', d' < d → Skips m.els key (probe (home hashFn m key) m.capacity d'))
    (he : m.els[probe (home hashFn m key) m.capacity d]? = some none) :
    NoKey m.els key := by
  intro i e hie hk
  have hi : i < m.capacity := by
    rw [← hm.wf.len]; exact (List.getElem?_eq_some.mp hie).1
  obtain ⟨di, hdi, hpi⟩ := probe_surj (home_lt hashFn hm.wf key) hi
  rcases Nat.lt_trichotomy di d with hlt | heq | hgt
  · obtain ⟨e1, he1, hne⟩ := hskip di hlt
    rw [hpi, hie] at he1
    cases he1
    exact hne hk
  · subst heq
    rw [hpi, hie] at he
    cases he
  · have hc := hm.chain i e di hie hdi (by rw [hk]; exact hpi) d hgt
    rw [hk, he] at hc
    obtain ⟨e', he'⟩ := hc
    cases he'

theorem occupied_overwrite {m m' : fixedHashMap V} {i : Nat} {e' : element V}
    (how : Overwrites m m' i e') {j : Nat} (h : ∃ e, m.els[j]? = some (some e)) :
    ∃ e, m'.els[j]? = some (some e) := by
  obtain ⟨e, he⟩ := h
  rw [how.2]
  by_cases hij : i = j
  · subst hij
    have hlt : i < m.els.length := (List.getElem?_eq_some.mp he).1
    exact ⟨e', by rw [List.getElem?_set_self hlt]⟩
  · exact ⟨e, by rw [List.getElem?_set_ne hij]; exact he⟩

theorem Chain_overwrite {m m' : fixedHashMap V} {hashFn : String → Nat} (hm : Inv hashFn m)
    {i : Nat} {e' : element V} (how : Overwrites m m' i e')
    (hnew : ∀ d, d < m.capacity → probe (home hashFn m e'.key) m.capacity d = i →
      ∀ d', d' < d → ∃ e, m.els[probe (home hashFn m e'.key) m.capacity d']? = some (some e)) :
    Chain hashFn m' := by
  intro j ej d hj hd hp d' hd'
  rw [home_overwrite how, how.1] at hp ⊢
  rw [how.1] at hd
  apply occupied_overwrite how
  by_cases hij : i = j
  · subst hij
    have hlt : i < m.capacity := by
      rw [← hp]; exact probe_lt hm.wf.pos d
    rw [getElem?_overwrite_self hm.wf how hlt] at hj
    cases hj
    exact hnew d hd hp d' hd'
  · rw [getElem?_overwrite_ne how hij] at hj
    exact hm.chain j ej d hj hd hp d' hd'

theorem Inv_overwrite_new {m m' : fixedHashMap V} {hashFn : String → Nat} (hm : Inv hashFn m)
    {key : String} {d : Nat} {e' : element V} (hd : d < m.capacity)
    (hskip : ∀ d', d' < d → Skips m.els key (probe (home hashFn m key) m.capacity d'))
    (how : Overwrites m m' (probe (home hashFn m key) m.capacity d) e') (hk : e'.key = key) :
    Inv hashFn m' :=
  ⟨WF_overwrite hm.wf how, Chain_overwrite hm how (by
    intro d1 hd1 hp d' hd'
    rw [hk] at hp ⊢
    have := probe_inj (home_lt hashFn hm.wf key) hd1 hd hp
    subst this
    obtain ⟨e, he, _⟩ := hskip d' hd'
    exact ⟨e, he⟩)⟩

theorem Inv_Set {m m' : fixedHashMap V} {hashFn : String → Nat} (hm : Inv hashFn m)
    {key : String} {value : Option V} {b : Bool}
    (h : m.Set hashFn key value = Res.ret (b, m')) : Inv hashFn m' := by
  rcases Set_cases hm.wf hashFn key value with h1 | ⟨d, m1, hd, hskip, _, h1, how, _⟩
  · rw [h1] at h
    cases h
    exact hm
  · rw [h1] at h
    cases h
    exact Inv_overwrite_new hm hd hskip how rfl

theorem Inv_Delete {m m' : fixedHashMap V} {hashFn : String → Nat} (hm : Inv hashFn m)
    {key : String} {v : Option V}
    (h : m.Delete hashFn key = Res.ret (v, m')) : Inv hashFn m' := by
  rcases Delete_cases hm.wf hashFn key with ⟨h1, _⟩ | ⟨d, e, m1, hd, hskip, _, _, h1, how, _⟩
  · rw [h1] at h
    cases h
    exact hm
  · rw [h1] at h
    cases h
    exact Inv_overwrite_new hm hd hskip how rfl

theorem Inv_New {c : Nat} (hashFn : String → Nat) (h0 : 0 < c) (hU : c < U32) :
    Inv hashFn (New c : fixedHashMap V) := by
  refine ⟨⟨by simp [New], h0, hU⟩, ?_⟩
  intro i e d hi
  simp only [New, List.getElem?_replicate] at hi
  split_ifs at hi
  cases hi

/-! ## Reading a key after an operation -/

theorem Set_true_Get {m m' : fixedHashMap V} (hm : WF m) {hashFn : String → Nat}
    {key : String} {value : Option V} (h : m.Set hashFn key value = Res.ret (true, m')) :
    m'.Get hashFn key = Res.ret value := by
  rcases Set_cases hm hashFn key value with h1 | ⟨d, m1, hd, hskip, _, h1, how, _⟩
  · rw [h1] at h
    cases h
  · rw [h1] at h
    cases h
    obtain ⟨hf, he⟩ := find_overwrite_key hm hashFn hd hskip how rfl
    rw [Get_found hf he]
    rfl

theorem Set_false_eq {m m' : fixedHashMap V} (hm : WF m) {hashFn : String → Nat}
    {key : String} {value : Option V} (h : m.Set hashFn key value = Res.ret (false, m')) :
    m' = m := by
  rcases Set_cases hm hashFn key value with h1 | ⟨d, m1, _, _, _, h1, _, _⟩
  · rw [h1] at h
    cases h
    rfl
  · rw [h1] at h
    cases h

theorem Delete_Get {m m' : fixedHashMap V} (hm : WF m) {hashFn : String → Nat}
    {key : String} {v : Option V} (h : m.Delete hashFn key = Res.ret (v, m')) :
    m'.Get hashFn key = Res.ret none := by
  rcases Delete_cases hm hashFn key with ⟨h1, hg⟩ | ⟨d, e, m1, hd, hskip, _, _, h1, how, _⟩
  · rw [h1] at h
    cases h
    exact hg
  · rw [h1] at h
    cases h
    obtain ⟨hf, he⟩ := find_overwrite_key hm hashFn hd hskip how rfl
    rw [Get_found hf he]
    rfl

theorem NoKey_overwrite {m m' : fixedHashMap V} {i : Nat} {e' : element V}
    (how : Overwrites m m' i e') {key : String} (hk : e'.key ≠ key)
    (h : NoKey m.els key) : NoKey m'.els key := by
  intro j e hj
  by_cases hij : i = j
  · subst hij
    have hlt : i < m.els.length := by
      have := (List.getElem?_eq_some.mp hj).1
      rw [how.2, List.length_set] at this
      exact this
    rw [how.2, List.getElem?_set_self hlt] at hj
    cases hj
    exact hk
  · rw [getElem?_overwrite_ne how hij] at hj
    exact h j e hj

/-- Overwriting the slot at which the probe for `key` stopped, by an element
with that key, does not change what `Get` returns for any other key. -/
theorem Get_overwrite_other {m m' : fixedHashMap V} {hashFn : String → Nat}
    (hm : Inv hashFn m) {key key2 : String} (hne : key ≠ key2) {d : Nat} {e' : element V}
    (hstop : Stops m.els key (probe (home hashFn m key) m.capacity d))
    (how : Overwrites m m' (probe (home hashFn m key) m.capacity d) e') (hk : e'.key = key) :
    m'.Get hashFn key2 = m.Get hashFn key2 := by
  have hk2 : e'.key ≠ key2 := by rw [hk]; exact hne
  by_cases hex : ∃ d2, d2 < m.capacity
      ∧ (∀ d', d' < d2 → Skips m.els key2 (probe (home hashFn m key2) m.capacity d'))
      ∧ Stops m.els key2 (probe (home hashFn m key2) m.capacity d2)
      ∧ probe (home hashFn m key) m.capacity d = probe (home hashFn m key2) m.capacity d2
  · obtain ⟨d2, hd2, hskip2, hstop2, heq⟩ := hex
    have hnil : m.els[probe (home hashFn m key2) m.capacity d2]? = some none := by
      rcases hstop2 with h0 | ⟨e2, he2, hke2⟩
      · exact h0
      · rw [heq] at hstop
        rcases hstop with h0 | ⟨e, he, hke⟩
        · exact h0
        · rw [he2] at he
          cases he
          exact absurd (hke.symm.trans hke2) hne
    have hno := noKey_of_nil hm hd2 hskip2 hnil
    have hf := find_of_stops hm.wf hashFn key2 hd2 hskip2 (Or.inl hnil)
    rw [Get_nil hf hnil,
      Get_none_of_noKey (WF_overwrite hm.wf how) hashFn (NoKey_overwrite how hk2 hno)]
  · exact Get_overwrite_of_ne hm.wf hashFn how hk2
      (fun d2 hd2 hskip2 hstop2 heq => hex ⟨d2, hd2, hskip2, hstop2, heq⟩)

theorem Set_Get_other {m m' : fixedHashMap V} {hashFn : String → Nat} (hm : Inv hashFn m)
    {key key2 : String} (hne : key ≠ key2) {value : Option V} {b : Bool}
    (h : m.Set hashFn key value = Res.ret (b, m')) :
    m'.Get hashFn key2 = m.Get hashFn key2 := by
  rcases Set_cases hm.wf hashFn key value with h1 | ⟨d, m1, hd, hskip, _, h1, how, hcase⟩
  · rw [h1] at h
    cases h
    rfl
  · rw [h1] at h
    cases h
    have hstop : Stops m.els key (probe (home hashFn m key) m.capacity d) := by
      rcases hcase with ⟨e, he, hke, _⟩ | ⟨he, _⟩
      · exact Or.inr ⟨e, he, hke⟩
      · exact Or.inl he
    exact Get_overwrite_other hm hne hstop how rfl

theorem Delete_Get_other {m m' : fixedHashMap V} {hashFn : String → Nat} (hm : Inv hashFn m)
    {key key2 : String} (hne : key ≠ key2) {v : Option V}
    (h : m.Delete hashFn key = Res.ret (v, m')) :
    m'.Get hashFn key2 = m.Get hashFn key2 := by
  rcases Delete_cases hm.wf hashFn key with ⟨h1, _⟩ | ⟨d, e, m1, hd, _, he, hke, h1, how, _⟩
  · rw [h1] at h
    cases h
    rfl
  · rw [h1] at h
    cases h
    exact Get_overwrite_other hm hne (Or.inr ⟨e, he, hke⟩) how rfl

/-! ## Sequences of calls -/

theorem step_Set_ret {hashFn : String → Nat} {m m' : fixedHashMap V} {key : String}
    {value : Option V} {a : Answer V} (h : step hashFn m (Call.Set key value) = Res.ret (a, m')) :
    ∃ b, m.Set hashFn key value = Res.ret (b, m') ∧ a = Answer.bool b := by
  simp only [step] at h
  split at h
  · rename_i b m1 heq
    cases h
    exact ⟨b, heq, rfl⟩
  · cases h
  · cases h

theorem step_Get_ret {hashFn : String → Nat} {m m' : fixedHashMap V} {key : String}
    {a : Answer V} (h : step hashFn m (Call.Get key) = Res.ret (a, m')) :
    ∃ v, m.Get hashFn key = Res.ret v ∧ a = Answer.value v ∧ m' = m := by
  simp only [step] at h
  split at h
  · rename_i v heq
    cases h
    exact ⟨v, heq, rfl, rfl⟩
  · cases h
  · cases h

theorem step_Delete_ret {hashFn : String → Nat} {m m' : fixedHashMap V} {key : String}
    {a : Answer V} (h : step hashFn m (Call.Delete key) = Res.ret (a, m')) :
    ∃ v, m.Delete hashFn key = Res.ret (v, m') ∧ a = Answer.value v := by
  simp only [step] at h
  split at h
  · rename_i v m1 heq
    cases h
    exact ⟨v, heq, rfl⟩
  · cases h
  · cases h

theorem step_Load_ret {hashFn : String → Nat} {m m' : fixedHashMap V} {a : Answer V}
    (h : step hashFn m Call.Load = Res.ret (a, m')) : a = Answer.load m.Load ∧ m' = m := by
  simp only [step] at h
  cases h
  exact ⟨rfl, rfl⟩

theorem run_cons_ret {hashFn : String → Nat} {m m' : fixedHashMap V} {c : Call V}
    {cs : List (Call V)} {as : List (Answer V)}
    (h : run hashFn m (c :: cs) = Res.ret (as, m')) :
    ∃ a m1 as1, step hashFn m c = Res.ret (a, m1) ∧ run hashFn m1 cs = Res.ret (as1, m')
      ∧ as = a :: as1 := by
  rw [run] at h
  split at h
  · rename_i a m1 hstep
    split at h
    · rename_i as1 m2 hrun
      cases h
      exact ⟨a, m1, as1, hstep, hrun, rfl⟩
    · cases h
    · cases h
  · cases h
  · cases h

theorem run_cons_of {hashFn : String → Nat} {m m1 m' : fixedHashMap V} {c : Call V}
    {cs : List (Call V)} {a : Answer V} {as1 : List (Answer V)}
    (h1 : step hashFn m c = Res.ret (a, m1)) (h2 : run hashFn m1 cs = Res.ret (as1, m')) :
    run hashFn m (c :: cs) = Res.ret (a :: as1, m') := by
  rw [run]
  simp only [h1, h2]

theorem step_total (hashFn : String → Nat) {m : fixedHashMap V} (hm : WF m) (c : Call V) :
    ∃ a m', step hashFn m c = Res.ret (a, m') := by
  cases c with
  | Set key value =>
    rcases Set_cases hm hashFn key value with h1 | ⟨d, m1, _, _, _, h1, _, _⟩
    · exact ⟨Answer.bool false, m, by simp only [step, h1]⟩
    · exact ⟨Answer.bool true, m1, by simp only [step, h1]⟩
  | Get key =>
    obtain ⟨v, hv⟩ := Get_total hm hashFn key
    exact ⟨Answer.value v, m, by simp only [step, hv]⟩
  | Delete key =>
    rcases Delete_cases hm hashFn key with ⟨h1, _⟩ | ⟨d, e, m1, _, _, _, _, h1, _, _⟩
    · exact ⟨Answer.value none, m, by simp only [step, h1]⟩
    · exact ⟨Answer.value none, m1, by simp only [step, h1]⟩
  | Load => exact ⟨Answer.load m.Load, m, rfl⟩

theorem Inv_step {hashFn : String → Nat} {m m' : fixedHashMap V} (hm : Inv hashFn m)
    {c : Call V} {a : Answer V} (h : step hashFn m c = Res.ret (a, m')) : Inv hashFn m' := by
  cases c with
  | Set key value =>
    obtain ⟨b, hb, _⟩ := step_Set_ret h
    exact Inv_Set hm hb
  | Get key =>
    obtain ⟨v, _, _, rfl⟩ := step_Get_ret h
    exact hm
  | Delete key =>
    obtain ⟨v, hv, _⟩ := step_Delete_ret h
    exact Inv_Delete hm hv
  | Load =>
    obtain ⟨_, rfl⟩ := step_Load_ret h
    exact hm

theorem Inv_run {hashFn : String → Nat} :
    ∀ (cs : List (Call V)) (m m' : fixedHashMap V) (as : List (Answer V)),
      Inv hashFn m → run hashFn m cs = Res.ret (as, m') → Inv hashFn m' := by
  intro cs
  induction cs with
  | nil =>
    intro m m' as hm h
    rw [run] at h
    cases h
    exact hm
  | cons c cs ih =>
    intro m m' as hm h
    obtain ⟨a, m1, as1, hs, hr, _⟩ := run_cons_ret h
    exact ih m1 m' as1 (Inv_step hm hs) hr

theorem run_total (hashFn : String → Nat) :
    ∀ (cs : List (Call V)) (m : fixedHashMap V), Inv hashFn m →
      ∃ as m', run hashFn m cs = Res.ret (as, m') := by
  intro cs
  induction cs with
  | nil => intro m _; exact ⟨[], m, rfl⟩
  | cons c cs ih =>
    intro m hm
    obtain ⟨a, m1, hs⟩ := step_total hashFn hm.wf c
    obtain ⟨as1, m', hr⟩ := ih m1 (Inv_step hm hs)
    exact ⟨_, _, run_cons_of hs hr⟩

theorem Reachable.inv {hashFn : String → Nat} {m : fixedHashMap V}
    (h : Reachable hashFn m) : Inv hashFn m := by
  obtain ⟨c, cs, as, h0, hU, hr⟩ := h
  exact Inv_run cs _ _ as (Inv_New hashFn h0 hU) hr

/-! ## Counting taken slots, and filling a fresh table -/

theorem occupied_set_nil (e : element V) :
    ∀ (els : List (Option (element V))) (i : Nat), els[i]? = some none →
      occupied (els.set i (some e)) = occupied els + 1 := by
  intro els
  induction els with
  | nil => intro i h; simp at h
  | cons x xs ih =>
    intro i h
    cases i with
    | zero =>
      simp only [List.getElem?_cons_zero, Option.some.injEq] at h
      subst h
      simp [occupied]
    | succ i =>
      simp only [List.getElem?_cons_succ] at h
      have := ih i h
      unfold occupied at this ⊢
      cases x with
      | none => simpa using this
      | some y => simpa using this

theorem occupied_all :
    ∀ (els : List (Option (element V))),
      (∀ i, i < els.length → ∃ e, els[i]? = some (some e)) → occupied els = els.length := by
  intro els
  induction els with
  | nil => intro _; rfl
  | cons x xs ih =>
    intro h
    obtain ⟨e, he⟩ := h 0 (by simp)
    simp only [List.getElem?_cons_zero, Option.some.injEq] at he
    subst he
    have := ih (fun i hi => by
      have := h (i + 1) (by simp; omega)
      simpa using this)
    unfold occupied at this ⊢
    simpa using this

theorem occupied_replicate (c : Nat) :
    occupied (List.replicate c (none : Option (element V))) = 0 := by
  induction c with
  | zero => rfl
  | succ c ih =>
    unfold occupied at ih ⊢
    simp [List.replicate_succ]

/-- Setting a key that no slot holds, on a table with room, takes a nil slot. -/
theorem Set_fresh {m : fixedHashMap V} {hashFn : String → Nat} (hm : Inv hashFn m)
    (hocc : occupied m.els = m.n) (hlt : m.n < m.capacity) {key : String}
    (hno : NoKey m.els key) (value : Option V) :
    ∃ m', m.Set hashFn key value = Res.ret (true, m') ∧ Inv hashFn m'
      ∧ occupied m'.els = m'.n ∧ m'.n = m.n + 1 ∧ m'.capacity = m.capacity
      ∧ (∀ k2, k2 ≠ key → NoKey m.els k2 → NoKey m'.els k2) := by
  have hn : m.n ≠ m.capacity := by omega
  rcases find_cases hm.wf hashFn key with ⟨d, e, _, _, he, hke, _⟩ | ⟨d, hd, hskip, he, hf⟩
    | ⟨hall, _⟩
  · exact absurd hke (hno _ e he)
  · have how : Overwrites m
        { m with els := m.els.set (probe (home hashFn m key) m.capacity d)
                   (some { key := key, value := value, deleted := false }),
                 n := (m.n + 1) % U32 }
        (probe (home hashFn m key) m.capacity d)
        { key := key, value := value, deleted := false } := ⟨rfl, rfl⟩
    have hmod : (m.n + 1) % U32 = m.n + 1 :=
      Nat.mod_eq_of_lt (by have := hm.wf.lt; omega)
    refine ⟨_, Set_nil value hn hf he, Inv_overwrite_new hm hd hskip how rfl, ?_, hmod, rfl, ?_⟩
    · show occupied (m.els.set _ _) = (m.n + 1) % U32
      rw [occupied_set_nil _ _ _ he, hocc, hmod]
    · intro k2 hk2 h2
      exact NoKey_overwrite how (fun h => hk2 h.symm) h2
  · have hfull := occupied_all m.els (fun i hi => by
      obtain ⟨e, he, _⟩ := hall i (by rw [← hm.wf.len]; exact hi)
      exact ⟨e, he⟩)
    rw [hm.wf.len, hocc] at hfull
    omega

theorem run_setCalls_Get_other {hashFn : String → Nat} {key : String} :
    ∀ (kvs : List (String × Option V)) (m m' : fixedHashMap V) (as : List (Answer V)),
      Inv hashFn m → run hashFn m (setCalls kvs) = Res.ret (as, m') →
      key ∉ kvs.map Prod.fst → m'.Get hashFn key = m.Get hashFn key := by
  intro kvs
  induction kvs with
  | nil =>
    intro m m' as _ h _
    simp only [setCalls, List.map_nil, run] at h
    cases h
    rfl
  | cons p kvs ih =>
    intro m m' as hm h hk
    obtain ⟨a, m1, as1, hs, hr, _⟩ := run_cons_ret (by simpa [setCalls] using h)
    obtain ⟨b, hb, _⟩ := step_Set_ret hs
    simp only [List.map_cons, List.mem_cons, not_or] at hk
    have h1 := Set_Get_other hm (fun h => hk.1 h.symm) hb
    have h2 := ih m1 m' as1 (Inv_Set hm hb) (by simpa [setCalls] using hr) hk.2
    rw [h2, h1]

/-- Setting pairwise distinct keys that the table does not hold, while there
is room: every `Set` returns true, the count grows by the number of keys, and
every key reads back its value. -/
theorem run_setCalls_fresh (hashFn : String → Nat) :
    ∀ (kvs : List (String × Option V)) (m : fixedHashMap V),
      Inv hashFn m → occupied m.els = m.n → m.n + kvs.length ≤ m.capacity →
      (kvs.map Prod.fst).Nodup → (∀ p, p ∈ kvs → NoKey m.els p.1) →
      ∃ m', run hashFn m (setCalls kvs)
            = Res.ret (List.replicate kvs.length (Answer.bool true), m')
        ∧ m'.n = m.n + kvs.length ∧ m'.capacity = m.capacity ∧ Inv hashFn m'
        ∧ ∀ p, p ∈ kvs → m'.Get hashFn p.1 = Res.ret p.2 := by
  intro kvs
  induction kvs with
  | nil =>
    intro m hm _ _ _ _
    exact ⟨m, rfl, rfl, rfl, hm, by simp⟩
  | cons p kvs ih =>
    intro m hm hocc hroom hnd hno
    simp only [List.length_cons] at hroom
    simp only [List.map_cons, List.nodup_cons] at hnd
    obtain ⟨m1, hset, hm1, hocc1, hn1, hc1, hkeep⟩ :=
      Set_fresh hm hocc (by omega) (hno p (List.mem_cons_self _ _)) p.2
    have hno1 : ∀ q, q ∈ kvs → NoKey m1.els q.1 := by
      intro q hq
      apply hkeep q.1 _ (hno q (List.mem_cons_of_mem _ hq))
      intro heq
      exact hnd.1 (by rw [← heq]; exact List.mem_map_of_mem Prod.fst hq)
    obtain ⟨m', hrun, hn', hc', hm', hget⟩ :=
      ih m1 hm1 hocc1 (by rw [hn1, hc1]; omega) hnd.2 hno1
    have hstep : step hashFn m (Call.Set p.1 p.2) = Res.ret (Answer.bool true, m1) := by
      simp only [step, hset]
    refine ⟨m', ?_, by rw [hn', hn1, List.length_cons]; omega, by rw [hc', hc1], hm', ?_⟩
    · have := run_cons_of hstep hrun
      simpa [setCalls, List.replicate_succ] using this
    · intro q hq
      rcases List.mem_cons.mp hq with rfl | hq
      · rw [run_setCalls_Get_other kvs m1 m' _ hm1 hrun hnd.1]
        exact Set_true_Get hm.wf hset
      · exact hget q hq

/-! ## A key that reads nil keeps reading nil -/

theorem step_Get_none {hashFn : String → Nat} {m m' : fixedHashMap V} (hm : Inv hashFn m)
    {key : String} (hg : m.Get hashFn key = Res.ret none) {c : Call V} {a : Answer V}
    (hs : step hashFn m c = Res.ret (a, m'))
    (hnot : ∀ value, ¬ (c = Call.Set key value ∧ a = Answer.bool true)) :
    m'.Get hashFn key = Res.ret none := by
  cases c with
  | Set k value =>
    obtain ⟨b, hb, ha⟩ := step_Set_ret hs
    by_cases hk : k = key
    · subst hk
      cases b with
      | false =>
        rw [Set_false_eq hm.wf hb]
        exact hg
      | true => exact absurd ⟨rfl, ha⟩ (hnot value)
    · rw [Set_Get_other hm hk hb]
      exact hg
  | Get k =>
    obtain ⟨v, _, _, rfl⟩ := step_Get_ret hs
    exact hg
  | Delete k =>
    obtain ⟨v, hv, _⟩ := step_Delete_ret hs
    by_cases hk : k = key
    · subst hk
      exact Delete_Get hm.wf hv
    · rw [Delete_Get_other hm hk hv]
      exact hg
  | Load =>
    obtain ⟨_, rfl⟩ := step_Load_ret hs
    exact hg

theorem run_Get_none {hashFn : String → Nat} {key : String} :
    ∀ (cs : List (Call V)) (m m' : fixedHashMap V) (as : List (Answer V)),
      Inv hashFn m → m.Get hashFn key = Res.ret none → run hashFn m cs = Res.ret (as, m') →
      (∀ value, (Call.Set key value, Answer.bool true) ∉ cs.zip as) →
      m'.Get hashFn key = Res.ret none := by
  intro cs
  induction cs with
  | nil =>
    intro m m' as _ hg h _
    rw [run] at h
    cases h
    exact hg
  | cons c cs ih =>
    intro m m' as hm hg h hnot
    obtain ⟨a, m1, as1, hs, hr, rfl⟩ := run_cons_ret h
    simp only [List.zip_cons_cons, List.mem_cons, not_or] at hnot
    have h1 := step_Get_none hm hg hs (fun value hca => (hnot value).1 (by rw [hca.1, hca.2]))
    exact ih m1 m' as1 (Inv_step hm hs) h1 hr (fun value => (hnot value).2)

theorem Get_New {c : Nat} (hashFn : String → Nat) (h0 : 0 < c) (hU : c < U32) (key : String) :
    (New c : fixedHashMap V).Get hashFn key = Res.ret none := by
  apply Get_none_of_noKey (Inv_New hashFn h0 hU).wf
  intro i e hi
  simp only [New, List.getElem?_replicate] at hi
  split_ifs at hi
  cases hi

/-! ## Appending runs, and repeated `Delete` on a one-slot table -/

theorem run_append_ret {hashFn : String → Nat} :
    ∀ (cs1 cs2 : List (Call V)) (m m1 m2 : fixedHashMap V) (as1 as2 : List (Answer V)),
      run hashFn m cs1 = Res.ret (as1, m1) → run hashFn m1 cs2 = Res.ret (as2, m2) →
      run hashFn m (cs1 ++ cs2) = Res.ret (as1 ++ as2, m2) := by
  intro cs1
  induction cs1 with
  | nil =>
    intro cs2 m m1 m2 as1 as2 h1 h2
    rw [run] at h1
    cases h1
    exact h2
  | cons c cs1 ih =>
    intro cs2 m m1 m2 as1 as2 h1 h2
    obtain ⟨a, m0, as0, hs, hr, rfl⟩ := run_cons_ret h1
    exact run_cons_of hs (ih cs2 m0 m1 m2 as0 as2 hr h2)

theorem Delete_single (hashFn : String → Nat) (e : element V) (n : Nat) :
    ({ els := [some e], n := n, capacity := 1 } : fixedHashMap V).Delete hashFn e.key
      = Res.ret (none, { els := [some { key := e.key, value := none, deleted := true }],
                         n := (n + U32 - 1) % U32, capacity := 1 }) := by
  simp [fixedHashMap.Delete, fixedHashMap.find, findLoop, slot, Nat.mod_one]

/-- On a one-slot table whose slot is a tombstone for `key`, `j` further calls
of `Delete key` each return nil and take `j` off the count modulo `2 ^ 32`. -/
theorem run_replicate_Delete_single (hashFn : String → Nat) (key : String) :
    ∀ (j n : Nat), n < U32 →
      run hashFn
          ({ els := [some { key := key, value := none, deleted := true }], n := n,
             capacity := 1 } : fixedHashMap V)
          (List.replicate j (Call.Delete key))
        = Res.ret (List.replicate j (Answer.value none),
            { els := [some { key := key, value := none, deleted := true }],
              n := (n + j * (U32 - 1)) % U32, capacity := 1 }) := by
  intro j
  induction j with
  | zero =>
    intro n hn
    rw [Nat.zero_mul, Nat.add_zero, Nat.mod_eq_of_lt hn]
    rfl
  | succ j ih =>
    intro n _
    have hs : step hashFn
        ({ els := [some { key := key, value := none, deleted := true }], n := n,
           capacity := 1 } : fixedHashMap V) (Call.Delete key)
        = Res.ret (Answer.value none,
            { els := [some { key := key, value := none, deleted := true }],
              n := (n + U32 - 1) % U32, capacity := 1 }) := by
      have := Delete_single hashFn ({ key := key, value := none, deleted := true } : element V) n
      simp only [step, this]
    have hr := ih ((n + U32 - 1) % U32) (Nat.mod_lt _ (by unfold U32; omega))
    have harith : ((n + U32 - 1) % U32 + j * (U32 - 1)) % U32
        = (n + (j + 1) * (U32 - 1)) % U32 := by
      rw [Nat.mod_add_mod]
      congr 1
      unfold U32
      omega
    rw [harith] at hr
    rw [List.replicate_succ, List.replicate_succ]
    exact run_cons_of hs hr

theorem NoKey_New (c : Nat) (key : String) : NoKey (New c : fixedHashMap V).els key := by
  intro i e hi
  simp only [New, List.getElem?_replicate] at hi
  split_ifs at hi
  cases hi

theorem Delete_returns_nil {m : fixedHashMap V} (hm : WF m) (hashFn : String → Nat)
    (key : String) : ∃ m', m.Delete hashFn key = Res.ret (none, m') := by
  rcases Delete_cases hm hashFn key with ⟨h1, _⟩ | ⟨d, e, m1, _, _, _, _, h1, _, _⟩
  · exact ⟨m, h1⟩
  · exact ⟨m1, h1⟩

/-- On a table satisfying the invariant, deleting a live key and setting it
again succeeds and reads back, provided the count left by `Delete` differs
from the capacity. -/
theorem Delete_Set_Get_of_count {m : fixedHashMap V} {hashFn : String → Nat}
    (hm : Inv hashFn m) {key : String} (hlive : Live m.els key) (value2 : Option V) :
    ∃ m1, m.Delete hashFn key = Res.ret (none, m1)
      ∧ (m1.n ≠ m1.capacity →
          ∃ m2, m1.Set hashFn key value2 = Res.ret (true, m2)
            ∧ m2.Get hashFn key = Res.ret value2) := by
  obtain ⟨i, e0, hi, hk0, _⟩ := hlive
  rcases find_cases hm.wf hashFn key with ⟨d, e, hd, hskip, he, hke, hf⟩ | ⟨d, hd, hskip, he, _⟩
    | ⟨hall, _⟩
  · have how : Overwrites m
        { m with els := m.els.set (probe (home hashFn m key) m.capacity d)
                   (some { key := e.key, value := none, deleted := true }),
                 n := (m.n + U32 - 1) % U32 }
        (probe (home hashFn m key) m.capacity d)
        { key := e.key, value := none, deleted := true } := ⟨rfl, rfl⟩
    refine ⟨_, Delete_found hf he, fun hn => ?_⟩
    obtain ⟨hf1, he1⟩ := find_overwrite_key hm.wf hashFn hd hskip how hke
    have hset := Set_found value2 hn hf1 he1
    exact ⟨_, hset, Set_true_Get (WF_overwrite hm.wf how) hset⟩
  · exact absurd hk0 (noKey_of_nil hm hd hskip he i e0 hi)
  · have hlt : i < m.capacity := by
      rw [← hm.wf.len]; exact (List.getElem?_eq_some.mp hi).1
    obtain ⟨e1, he1, hne⟩ := hall i hlt
    rw [hi] at he1
    cases he1
    exact absurd hk0 hne

/-! ## The claims -/

/-- C1 (round trip).  On every table reachable from `New c`, `0 < c`, for every
hash function, key and value: if `Set key value` returns true, the `Get key`
that follows returns exactly `value`. -/
theorem C1_set_get_round_trip (hashFn : String → Nat) (m m' : fixedHashMap V) (key : String)
    (value : Option V) (hr : Reachable hashFn m)
    (hset : m.Set hashFn key value = Res.ret (true, m')) :
    m'.Get hashFn key = Res.ret value :=
  Set_true_Get hr.inv.wf hset

theorem C1_set_get_round_trip_witness :
    Reachable String.length (New 2 : fixedHashMap Nat)
    ∧ (New 2 : fixedHashMap Nat).Set String.length "a" (some 7)
        = Res.ret (true, { els := [none, some ⟨"a", some 7, false⟩], n := 1, capacity := 2 })
    ∧ ({ els := [none, some ⟨"a", some 7, false⟩], n := 1, capacity := 2 } : fixedHashMap Nat).Get
        String.length "a" = Res.ret (some 7) :=
  have hr : Reachable String.length (New 2 : fixedHashMap Nat) :=
    ⟨2, [], [], by decide, by decide, rfl⟩
  ⟨hr, by decide, C1_set_get_round_trip String.length (New 2) _ "a" (some 7) hr (by decide)⟩

/-- C2 (Delete returns the deleted value): the code at the failing input.
For every hash function, after `New(1)` and `Set("a", 1)` the key `"a"` is live
with value `1`, and `Delete("a")` returns nil instead of `1`. -/
theorem C2_delete_returns_nil_for_live_key (hashFn : String → Nat) :
    ∃ m m' : fixedHashMap Nat,
      run hashFn (New 1) [Call.Set "a" (some 1)] = Res.ret ([Answer.bool true], m)
      ∧ m.Get hashFn "a" = Res.ret (some 1)
      ∧ m.Delete hashFn "a" = Res.ret (none, m') := by
  refine ⟨{ els := [some ⟨"a", some 1, false⟩], n := 1, capacity := 1 },
    { els := [some ⟨"a", none, true⟩], n := 0, capacity := 1 }, ?_, ?_, ?_⟩ <;>
  simp [run, step, fixedHashMap.Set, fixedHashMap.Get, fixedHashMap.Delete, fixedHashMap.find,
    findLoop, New, slot, Nat.mod_one, U32]

/-- C3 (load bounds): the code at the failing input.  For every hash function,
after `New(1)`, `Set("a", 1)`, `Delete("a")`, `Delete("a")` the stored count is
`4294967295`, above the capacity `1`, and `Load()` is above `1`. -/
theorem C3_count_exceeds_capacity (hashFn : String → Nat) :
    ∃ (as : List (Answer Nat)) (m : fixedHashMap Nat),
      run hashFn (New 1) [Call.Set "a" (some 1), Call.Delete "a", Call.Delete "a"]
        = Res.ret (as, m)
      ∧ m.n = 4294967295 ∧ m.capacity = 1 ∧ ¬ m.n ≤ m.capacity ∧ 1 < m.Load := by
  refine ⟨[Answer.bool true, Answer.value none, Answer.value none],
    { els := [some ⟨"a", none, true⟩], n := 4294967295, capacity := 1 }, ?_, rfl, rfl, ?_, ?_⟩
  · simp [run, step, fixedHashMap.Set, fixedHashMap.Delete, fixedHashMap.find,
      findLoop, New, slot, Nat.mod_one, U32]
  · decide
  · norm_num [fixedHashMap.Load]

/-- C4 (idempotent delete): the code at the failing input.  For every hash
function, after `New(1)`, `Set("a", 1)`, `Delete("a")` the key `"a"` is deleted
(`Get` returns nil, the count is `0`); a second `Delete("a")` returns nil but
changes the count to `4294967295`, and with it `Load()`. -/
theorem C4_second_delete_changes_count (hashFn : String → Nat) :
    ∃ m m' : fixedHashMap Nat,
      run hashFn (New 1) [Call.Set "a" (some 1), Call.Delete "a"]
        = Res.ret ([Answer.bool true, Answer.value none], m)
      ∧ m.Get hashFn "a" = Res.ret none ∧ m.n = 0
      ∧ m.Delete hashFn "a" = Res.ret (none, m')
      ∧ m'.n = 4294967295 ∧ m'.Load ≠ m.Load := by
  refine ⟨{ els := [some ⟨"a", none, true⟩], n := 0, capacity := 1 },
    { els := [some ⟨"a", none, true⟩], n := 4294967295, capacity := 1 },
    ?_, ?_, rfl, ?_, rfl, ?_⟩
  · simp [run, step, fixedHashMap.Set, fixedHashMap.Delete, fixedHashMap.find,
      findLoop, New, slot, Nat.mod_one, U32]
  · simp [fixedHashMap.Get, fixedHashMap.find, findLoop, slot, Nat.mod_one]
  · simp [fixedHashMap.Delete, fixedHashMap.find, findLoop, slot, Nat.mod_one, U32]
  · norm_num [fixedHashMap.Load]

/-- C5 (tombstone invisibility).  On every reachable table, for every key:
`Delete key` returns, the `Get key` after it returns nil, and after any
further sequence of calls in which no `Set key _` returned true, `Get key`
still returns nil. -/
theorem C5_tombstone_invisible (hashFn : String → Nat) (m : fixedHashMap V) (key : String)
    (cs : List (Call V)) (hr : Reachable hashFn m) :
    ∃ v m1 as m2, m.Delete hashFn key = Res.ret (v, m1)
      ∧ m1.Get hashFn key = Res.ret none
      ∧ run hashFn m1 cs = Res.ret (as, m2)
      ∧ ((∀ value, (Call.Set key value, Answer.bool true) ∉ cs.zip as) →
          m2.Get hashFn key = Res.ret none) := by
  have hm := hr.inv
  obtain ⟨a, m1, hs⟩ := step_total hashFn hm.wf (Call.Delete key)
  obtain ⟨v, hv, _⟩ := step_Delete_ret hs
  have hm1 := Inv_Delete hm hv
  have hg := Delete_Get hm.wf hv
  obtain ⟨as, m2, hrun⟩ := run_total hashFn cs m1 hm1
  exact ⟨v, m1, as, m2, hv, hg, hrun, run_Get_none cs m1 m2 as hm1 hg hrun⟩

theorem C5_tombstone_invisible_witness :
    Reachable String.length
      ({ els := [none, some ⟨"a", some 1, false⟩], n := 1, capacity := 2 } : fixedHashMap Nat)
    ∧ ∃ v m1 as m2,
      ({ els := [none, some ⟨"a", some 1, false⟩], n := 1, capacity := 2 }
        : fixedHashMap Nat).Delete String.length "a" = Res.ret (v, m1)
      ∧ m1.Get String.length "a" = Res.ret none
      ∧ run String.length m1 [Call.Get "a", Call.Set "b" (some 2), Call.Delete "b"]
          = Res.ret (as, m2)
      ∧ ((∀ value, (Call.Set "a" value, Answer.bool true)
            ∉ [Call.Get "a", Call.Set "b" (some 2), Call.Delete "b"].zip as) →
          m2.Get String.length "a" = Res.ret none) :=
  have hr : Reachable String.length
      ({ els := [none, some ⟨"a", some 1, false⟩], n := 1, capacity := 2 } : fixedHashMap Nat) :=
    ⟨2, [Call.Set "a" (some 1)], [Answer.bool true], by decide, by decide, by decide⟩
  ⟨hr, C5_tombstone_invisible String.length _ "a" _ hr⟩

/-- C6 (resurrection): the code at the failing input.  For every hash
function, `New(1)`, `Set("a", 1)`, `Delete("a")`, then `4294967294` more calls of
`Delete("a")` and `Set("a", 1)` reach a table on which `"a"` is live with count
`2`; there `Delete("a")` brings the count to `1`, the capacity, and
`Set("a", 2)` returns false. -/
theorem C6_set_after_delete_fails_on_wrapped_count (hashFn : String → Nat) :
    ∃ (as : List (Answer Nat)) (m m1 : fixedHashMap Nat),
      run hashFn (New 1)
          ([Call.Set "a" (some 1), Call.Delete "a"]
            ++ List.replicate 4294967294 (Call.Delete "a") ++ [Call.Set "a" (some 1)])
        = Res.ret (as, m)
      ∧ m.Get hashFn "a" = Res.ret (some 1)
      ∧ m.Delete hashFn "a" = Res.ret (none, m1)
      ∧ m1.Set hashFn "a" (some 2) = Res.ret (false, m1) := by
  have h1 : run hashFn (New 1 : fixedHashMap Nat) [Call.Set "a" (some 1), Call.Delete "a"]
      = Res.ret ([Answer.bool true, Answer.value none],
          { els := [some { key := "a", value := none, deleted := true }], n := 0,
            capacity := 1 }) := by
    simp [run, step, fixedHashMap.Set, fixedHashMap.Delete, fixedHashMap.find,
      findLoop, New, slot, Nat.mod_one, U32]
  have h2 := run_replicate_Delete_single (V := Nat) hashFn "a" 4294967294 0 (by decide)
  have hn : (0 + 4294967294 * (U32 - 1)) % U32 = 2 := by decide
  rw [hn] at h2
  have h3 : run hashFn
      ({ els := [some { key := "a", value := none, deleted := true }], n := 2,
         capacity := 1 } : fixedHashMap Nat) [Call.Set "a" (some 1)]
      = Res.ret ([Answer.bool true],
          { els := [some { key := "a", value := some 1, deleted := false }], n := 2,
            capacity := 1 }) := by
    simp [run, step, fixedHashMap.Set, fixedHashMap.find, findLoop, slot, Nat.mod_one]
  refine ⟨_, _, ({ els := [some ⟨"a", none, true⟩], n := 1, capacity := 1 } : fixedHashMap Nat),
    run_append_ret _ _ _ _ _ _ _ (run_append_ret _ _ _ _ _ _ _ h1 h2) h3, ?_, ?_, ?_⟩
  · simp [fixedHashMap.Get, fixedHashMap.find, findLoop, slot, Nat.mod_one]
  · simp [fixedHashMap.Delete, fixedHashMap.find, findLoop, slot, Nat.mod_one, U32]
  · simp [fixedHashMap.Set]

/-- C7 (live-count accounting in Set): the code at the failing input.  For
every hash function, after `New(1)`, `Set("a", 1)`, `Delete("a")` the slot of
`"a"` is a tombstone; `Set("a", 2)` returns true and makes the key live again,
and the stored count is the same before and after the call. -/
theorem C7_set_on_tombstone_keeps_count (hashFn : String → Nat) :
    ∃ m m' : fixedHashMap Nat,
      run hashFn (New 1) [Call.Set "a" (some 1), Call.Delete "a"]
        = Res.ret ([Answer.bool true, Answer.value none], m)
      ∧ m.els = [some { key := "a", value := none, deleted := true }]
      ∧ m.Set hashFn "a" (some 2) = Res.ret (true, m')
      ∧ m'.Get hashFn "a" = Res.ret (some 2)
      ∧ m.n = 0 ∧ m'.n = 0 := by
  refine ⟨{ els := [some ⟨"a", none, true⟩], n := 0, capacity := 1 },
    { els := [some ⟨"a", some 2, false⟩], n := 0, capacity := 1 }, ?_, rfl, ?_, ?_, rfl, rfl⟩
  · simp [run, step, fixedHashMap.Set, fixedHashMap.Delete, fixedHashMap.find,
      findLoop, New, slot, Nat.mod_one, U32]
  · simp [fixedHashMap.Set, fixedHashMap.find, findLoop, slot, Nat.mod_one]
  · simp [fixedHashMap.Get, fixedHashMap.find, findLoop, slot, Nat.mod_one]

/-- C8 (capacity guard).  For every `N` with `0 < N < 2 ^ 32`, every hash
function and every `N + 1` pairwise distinct keys: from `New N` the `Set` calls
for the first `N` keys all return true, and then `Set` of the last key returns
false, leaves the table as it is, the stored count is `N` and `Load()` is `1`. -/
theorem C8_capacity_guard (hashFn : String → Nat) (N : Nat) (kvs : List (String × Option V))
    (key : String) (value : Option V) (h0 : 0 < N) (hU : N < U32) (hlen : kvs.length = N)
    (hnd : (key :: kvs.map Prod.fst).Nodup) :
    ∃ m, run hashFn (New N) (setCalls kvs)
          = Res.ret (List.replicate N (Answer.bool true), m)
      ∧ m.Set hashFn key value = Res.ret (false, m) ∧ m.n = N ∧ m.Load = 1 := by
  obtain ⟨m, hrun, hn, hc, _, _⟩ := run_setCalls_fresh hashFn kvs (New N)
    (Inv_New hashFn h0 hU) (occupied_replicate N) (by simp [New, hlen])
    (List.nodup_cons.mp hnd).2 (fun p _ => NoKey_New N p.1)
  have hn' : m.n = N := by rw [hn, hlen]; simp [New]
  have hc' : m.capacity = N := by rw [hc]; rfl
  refine ⟨m, by rw [hrun, hlen], Set_maxLoad hashFn key value (by rw [hn', hc']), hn', ?_⟩
  have hN : (N : ℚ) ≠ 0 := by exact_mod_cast (Nat.pos_iff_ne_zero.mp h0)
  rw [fixedHashMap.Load, hn', hc', div_self hN]

theorem C8_capacity_guard_witness :
    (0 < 2 ∧ 2 < U32 ∧ [("a", some 1), ("b", some 2)].length = 2
      ∧ ("c" :: [("a", some 1), ("b", some 2)].map Prod.fst).Nodup)
    ∧ ∃ m : fixedHashMap Nat,
        run String.length (New 2) (setCalls [("a", some 1), ("b", some 2)])
          = Res.ret (List.replicate 2 (Answer.bool true), m)
        ∧ m.Set String.length "c" (some 3) = Res.ret (false, m) ∧ m.n = 2 ∧ m.Load = 1 :=
  ⟨⟨by decide, by decide, by decide, by decide⟩,
    C8_capacity_guard String.length 2 [("a", some 1), ("b", some 2)] "c" (some 3)
      (by decide) (by decide) (by decide) (by decide)⟩

/-- C9 (key independence).  On every reachable table, for distinct keys `key`
and `key2`: `Get key2` returns the same result before and after `Set key value`
(whatever it returns) and before and after `Delete key`.  And after the `Set`
calls for at most `N` pairwise distinct keys on `New N`, every key reads back
the value set for it. -/
theorem C9_key_independence (hashFn : String → Nat) (m : fixedHashMap V) (key key2 : String)
    (value : Option V) (hr : Reachable hashFn m) (hne : key ≠ key2) :
    (∃ r, m.Get hashFn key2 = Res.ret r
      ∧ (∃ b m1, m.Set hashFn key value = Res.ret (b, m1) ∧ m1.Get hashFn key2 = Res.ret r)
      ∧ (∃ v m2, m.Delete hashFn key = Res.ret (v, m2) ∧ m2.Get hashFn key2 = Res.ret r))
    ∧ (∀ (N : Nat) (kvs : List (String × Option V)), 0 < N → N < U32 → kvs.length ≤ N →
        (kvs.map Prod.fst).Nodup →
        ∃ as m', run hashFn (New N) (setCalls kvs) = Res.ret (as, m')
          ∧ ∀ p, p ∈ kvs → m'.Get hashFn p.1 = Res.ret p.2) := by
  have hm := hr.inv
  constructor
  · obtain ⟨r, hg⟩ := Get_total hm.wf hashFn key2
    obtain ⟨a, m1, hs⟩ := step_total hashFn hm.wf (Call.Set key value)
    obtain ⟨b, hb, _⟩ := step_Set_ret hs
    obtain ⟨a2, m2, hs2⟩ := step_total hashFn hm.wf (Call.Delete key)
    obtain ⟨v, hv, _⟩ := step_Delete_ret hs2
    exact ⟨r, hg, ⟨b, m1, hb, by rw [Set_Get_other hm hne hb, hg]⟩,
      ⟨v, m2, hv, by rw [Delete_Get_other hm hne hv, hg]⟩⟩
  · intro N kvs h0 hU hlen hnd
    obtain ⟨m', hrun, _, _, _, hget⟩ := run_setCalls_fresh hashFn kvs (New N)
      (Inv_New hashFn h0 hU) (occupied_replicate N) (by simpa [New] using hlen)
      hnd (fun p _ => NoKey_New N p.1)
    exact ⟨_, m', hrun, hget⟩

theorem C9_key_independence_witness :
    (Reachable String.length
        ({ els := [none, some ⟨"a", some 1, false⟩, some ⟨"b", some 2, false⟩], n := 2,
           capacity := 3 } : fixedHashMap Nat)
      ∧ "a" ≠ "b")
    ∧ ∃ r,
      ({ els := [none, some ⟨"a", some 1, false⟩, some ⟨"b", some 2, false⟩], n := 2,
         capacity := 3 } : fixedHashMap Nat).Get String.length "b" = Res.ret r
      ∧ (∃ b m1,
          ({ els := [none, some ⟨"a", some 1, false⟩, some ⟨"b", some 2, false⟩], n := 2,
             capacity := 3 } : fixedHashMap Nat).Set String.length "a" (some 9)
            = Res.ret (b, m1)
          ∧ m1.Get String.length "b" = Res.ret r)
      ∧ (∃ v m2,
          ({ els := [none, some ⟨"a", some 1, false⟩, some ⟨"b", some 2, false⟩], n := 2,
             capacity := 3 } : fixedHashMap Nat).Delete String.length "a" = Res.ret (v, m2)
          ∧ m2.Get String.length "b" = Res.ret r) :=
  have hr : Reachable String.length
      ({ els := [none, some ⟨"a", some 1, false⟩, some ⟨"b", some 2, false⟩], n := 2,
         capacity := 3 } : fixedHashMap Nat) :=
    ⟨3, [Call.Set "a" (some 1), Call.Set "b" (some 2)], [Answer.bool true, Answer.bool true],
      by decide, by decide, by decide⟩
  ⟨⟨hr, by decide⟩, (C9_key_independence String.length _ "a" "b" (some 9) hr (by decide)).1⟩

/-- C10 (key absent).  For every capacity `0 < c < 2 ^ 32`, hash function and
sequence of calls from `New c`: the calls all return, and if no `Set key _`
among them returned true, then on the table reached `Get key` returns nil and
`Delete key` returns nil. -/
theorem C10_key_absent (hashFn : String → Nat) (c : Nat) (cs : List (Call V)) (key : String)
    (h0 : 0 < c) (hU : c < U32) :
    ∃ as m, run hashFn (New c) cs = Res.ret (as, m)
      ∧ ((∀ value, (Call.Set key value, Answer.bool true) ∉ cs.zip as) →
          m.Get hashFn key = Res.ret none ∧ ∃ m', m.Delete hashFn key = Res.ret (none, m')) := by
  have hI : Inv hashFn (New c : fixedHashMap V) := Inv_New hashFn h0 hU
  obtain ⟨as, m, hrun⟩ := run_total hashFn cs (New c) hI
  refine ⟨as, m, hrun, fun hnot => ⟨?_, ?_⟩⟩
  · exact run_Get_none cs (New c) m as hI (Get_New hashFn h0 hU key) hrun hnot
  · exact Delete_returns_nil (Inv_run cs _ _ as hI hrun).wf hashFn key

theorem C10_key_absent_witness :
    (0 < 2 ∧ 2 < U32)
    ∧ ∃ as m, run String.length (New 2 : fixedHashMap Nat)
          [Call.Set "a" (some 1), Call.Set "bb" (some 2), Call.Set "c" (some 3),
            Call.Delete "a"] = Res.ret (as, m)
      ∧ ((∀ value, (Call.Set "c" value, Answer.bool true)
            ∉ [Call.Set "a" (some 1), Call.Set "bb" (some 2), Call.Set "c" (some 3),
                Call.Delete "a"].zip as) →
          m.Get String.length "c" = Res.ret none
            ∧ ∃ m', m.Delete String.length "c" = Res.ret (none, m')) :=
  ⟨⟨by decide, by decide⟩, C10_key_absent String.length 2 _ "c" (by decide) (by decide)⟩

/-! ## What the operations do on an arbitrary table -/

theorem findLoop_ret {els : List (Option (element V))} {cap : Nat} {key : String}
    {start : Nat} :
    ∀ (fuel idx : Nat) (r : Int), findLoop els cap key start fuel idx = Res.ret r →
      r = -1 ∨ ∃ i : Nat, r = (i : Int) ∧ Stops els key i := by
  intro fuel
  induction fuel with
  | zero =>
    intro idx r h
    simp [findLoop] at h
  | succ fuel ih =>
    intro idx r h
    rw [findLoop] at h
    split at h
    · cases h
    · rename_i hnil
      cases h
      exact Or.inr ⟨idx, rfl, Or.inl hnil⟩
    · rename_i el hel
      by_cases hk : el.key = key
      · rw [if_pos hk] at h
        cases h
        exact Or.inr ⟨idx, rfl, Or.inr ⟨el, hel, hk⟩⟩
      · rw [if_neg hk] at h
        dsimp only at h
        split_ifs at h
        · cases h
          exact Or.inl rfl
        · exact ih _ r h

theorem find_ret {m : fixedHashMap V} {hashFn : String → Nat} {key : String} {r : Int}
    (h : m.find hashFn key = Res.ret r) :
    r = -1 ∨ ∃ i : Nat, r = (i : Int) ∧ Stops m.els key i := by
  simp only [fixedHashMap.find] at h
  split_ifs at h
  exact findLoop_ret _ _ r h

/-- Whenever `Set` returns: either it returned false and the table is the
same, or it returned true and overwrote the slot that `find` returned, where
the probe for the key had stopped. -/
theorem Set_ret {m m' : fixedHashMap V} {hashFn : String → Nat} {key : String}
    {value : Option V} {b : Bool} (h : m.Set hashFn key value = Res.ret (b, m')) :
    (b = false ∧ m' = m)
    ∨ (b = true ∧ ∃ i : Nat, m.find hashFn key = Res.ret (i : Int) ∧ Stops m.els key i
        ∧ Overwrites m m' i { key := key, value := value, deleted := false }) := by
  simp only [fixedHashMap.Set] at h
  split_ifs at h with hn
  · cases h
    exact Or.inl ⟨rfl, rfl⟩
  · split at h
    · cases h
    · cases h
    · rename_i pos hf
      split_ifs at h with hp
      · cases h
        exact Or.inl ⟨rfl, rfl⟩
      · rcases find_ret hf with h1 | ⟨i, rfl, hstop⟩
        · exact absurd h1 hp
        · rw [slot_natCast] at h
          split at h
          · cases h
          · rename_i el hel
            cases h
            have hk : el.key = key := by
              rcases hstop with h0 | ⟨e, he, hke⟩
              · rw [hel] at h0
                cases h0
              · rw [hel] at he
                cases he
                exact hke
            refine Or.inr ⟨rfl, i, hf, hstop, rfl, ?_⟩
            simp only [Int.toNat_ofNat, hk]
          · cases h
            exact Or.inr ⟨rfl, i, hf, hstop, rfl, by simp only [Int.toNat_ofNat]⟩

/-- Whenever `Delete` returns, it returned nil: either the table is the same,
or the slot holding the key was overwritten by a tombstone for that key. -/
theorem Delete_ret {m m' : fixedHashMap V} {hashFn : String → Nat} {key : String}
    {v : Option V} (h : m.Delete hashFn key = Res.ret (v, m')) :
    v = none ∧ (m' = m
      ∨ ∃ (i : Nat) (e : element V), m.find hashFn key = Res.ret (i : Int)
          ∧ m.els[i]? = some (some e) ∧ e.key = key
          ∧ Overwrites m m' i { key := key, value := none, deleted := true }) := by
  simp only [fixedHashMap.Delete] at h
  split at h
  · cases h
  · cases h
  · rename_i pos hf
    split_ifs at h with hp
    · cases h
      exact ⟨rfl, Or.inl rfl⟩
    · rcases find_ret hf with h1 | ⟨i, rfl, hstop⟩
      · exact absurd h1 hp
      · rw [slot_natCast] at h
        split at h
        · cases h
        · cases h
          exact ⟨rfl, Or.inl rfl⟩
        · rename_i el hel
          cases h
          have hk : el.key = key := by
            rcases hstop with h0 | ⟨e, he, hke⟩
            · rw [hel] at h0
              cases h0
            · rw [hel] at he
              cases he
              exact hke
          refine ⟨rfl, Or.inr ⟨i, el, hf, hel, hk, rfl, ?_⟩⟩
          simp only [Int.toNat_ofNat, hk]

theorem Skips_not_Stops {els : List (Option (element V))} {key : String} {i : Nat}
    (h1 : Skips els key i) (h2 : Stops els key i) : False := by
  obtain ⟨e, he, hk⟩ := h1
  rcases h2 with h | ⟨e', he', hk'⟩
  · rw [he] at h
    cases h
  · rw [he] at he'
    cases he'
    exact hk hk'

/-- Overwriting the slot at which the probe for a key stopped, by an element
with that key, keeps every occupied slot occupied with its key. -/
theorem keeps_slot_overwrite {m m' : fixedHashMap V} {j : Nat} {e2 : element V}
    (how : Overwrites m m' j e2) (hstop : Stops m.els e2.key j) {i : Nat} {e : element V}
    (he : m.els[i]? = some (some e)) :
    ∃ e', m'.els[i]? = some (some e') ∧ e'.key = e.key ∧ (i ≠ j → e' = e)
      ∧ (i = j → e' = e2) := by
  by_cases hij : i = j
  · subst hij
    have hlt : i < m.els.length := (List.getElem?_eq_some.mp he).1
    refine ⟨e2, by rw [how.2, List.getElem?_set_self hlt], ?_, fun h => absurd rfl h,
      fun _ => rfl⟩
    rcases hstop with h0 | ⟨e1, he1, hk1⟩
    · rw [he] at h0
      cases h0
    · rw [he] at he1
      cases he1
      exact hk1.symm
  · refine ⟨e, ?_, rfl, fun _ => rfl, fun h => absurd h hij⟩
    rw [getElem?_overwrite_ne how (fun h => hij h.symm)]
    exact he

/-- Every call keeps every occupied slot occupied with the same key, and only
`Set` of that key turns a tombstone back into a live element. -/
theorem step_keeps_slot {hashFn : String → Nat} {m m' : fixedHashMap V} {c : Call V}
    {a : Answer V} (h : step hashFn m c = Res.ret (a, m')) {i : Nat} {e : element V}
    (he : m.els[i]? = some (some e)) :
    ∃ e', m'.els[i]? = some (some e') ∧ e'.key = e.key
      ∧ (e.deleted = true → e'.deleted = false → ∃ v, c = Call.Set e.key v) := by
  cases c with
  | Set key value =>
    obtain ⟨b, hb, _⟩ := step_Set_ret h
    rcases Set_ret hb with ⟨_, rfl⟩ | ⟨_, j, _, hstop, how⟩
    · exact ⟨e, he, rfl, fun h1 h2 => by rw [h1] at h2; cases h2⟩
    · obtain ⟨e', he', hk, hne, heq⟩ := keeps_slot_overwrite how hstop he
      refine ⟨e', he', hk, fun h1 h2 => ?_⟩
      by_cases hij : i = j
      · have := heq hij
        subst this
        exact ⟨value, by rw [← hk]⟩
      · rw [hne hij, h1] at h2
        cases h2
  | Get key =>
    obtain ⟨_, _, _, rfl⟩ := step_Get_ret h
    exact ⟨e, he, rfl, fun h1 h2 => by rw [h1] at h2; cases h2⟩
  | Delete key =>
    obtain ⟨v, hv, _⟩ := step_Delete_ret h
    rcases (Delete_ret hv).2 with rfl | ⟨j, e1, _, he1, hk1, how⟩
    · exact ⟨e, he, rfl, fun h1 h2 => by rw [h1] at h2; cases h2⟩
    · obtain ⟨e', he', hk, hne, heq⟩ :=
        keeps_slot_overwrite how (Or.inr ⟨e1, he1, hk1⟩) he
      refine ⟨e', he', hk, fun h1 h2 => ?_⟩
      by_cases hij : i = j
      · rw [heq hij] at h2
        cases h2
      · rw [hne hij, h1] at h2
        cases h2
  | Load =>
    obtain ⟨_, rfl⟩ := step_Load_ret h
    exact ⟨e, he, rfl, fun h1 h2 => by rw [h1] at h2; cases h2⟩

/-! ## Key uniqueness -/

theorem Uniq_overwrite {m m' : fixedHashMap V} (hu : Uniq m.els) {j : Nat} {e2 : element V}
    (how : Overwrites m m' j e2)
    (hcase : (∃ e, m.els[j]? = some (some e) ∧ e.key = e2.key) ∨ NoKey m.els e2.key) :
    Uniq m'.els := by
  have key_at : ∀ (a : Nat) (e : element V), m'.els[a]? = some (some e) →
      (a = j ∧ e = e2) ∨ (a ≠ j ∧ m.els[a]? = some (some e)) := by
    intro a e ha
    by_cases haj : a = j
    · subst haj
      have hlt : a < m.els.length := by
        have := (List.getElem?_eq_some.mp ha).1
        rw [how.2, List.length_set] at this
        exact this
      rw [how.2, List.getElem?_set_self hlt] at ha
      cases ha
      exact Or.inl ⟨rfl, rfl⟩
    · rw [getElem?_overwrite_ne how (fun h => haj h.symm)] at ha
      exact Or.inr ⟨haj, ha⟩
  have clash : ∀ (b : Nat) (e : element V), m.els[b]? = some (some e) → e.key = e2.key →
      b = j := by
    intro b e hb hk
    rcases hcase with ⟨e0, he0, hk0⟩ | hno
    · exact hu b j e e0 hb he0 (hk.trans hk0.symm)
    · exact absurd hk (hno b e hb)
  intro a b e1 e3 ha hb hk
  rcases key_at a e1 ha with ⟨ha1, rfl⟩ | ⟨_, ha2⟩
  · rcases key_at b e3 hb with ⟨hb1, _⟩ | ⟨_, hb2⟩
    · rw [ha1, hb1]
    · rw [ha1]
      exact (clash b e3 hb2 hk.symm).symm
  · rcases key_at b e3 hb with ⟨hb1, rfl⟩ | ⟨_, hb2⟩
    · rw [hb1]
      exact clash a e1 ha2 hk
    · exact hu a b e1 e3 ha2 hb2 hk

theorem Uniq_Set {m m' : fixedHashMap V} {hashFn : String → Nat} (hm : Inv hashFn m)
    (hu : Uniq m.els) {key : String} {value : Option V} {b : Bool}
    (h : m.Set hashFn key value = Res.ret (b, m')) : Uniq m'.els := by
  rcases Set_cases hm.wf hashFn key value with h1 | ⟨d, m1, hd, hskip, _, h1, how, hcase⟩
  · rw [h1] at h
    cases h
    exact hu
  · rw [h1] at h
    cases h
    apply Uniq_overwrite hu how
    rcases hcase with ⟨e, he, hke, _⟩ | ⟨he, _⟩
    · exact Or.inl ⟨e, he, hke⟩
    · exact Or.inr (noKey_of_nil hm hd hskip he)

theorem Uniq_Delete {m m' : fixedHashMap V} {hashFn : String → Nat} (hm : Inv hashFn m)
    (hu : Uniq m.els) {key : String} {v : Option V}
    (h : m.Delete hashFn key = Res.ret (v, m')) : Uniq m'.els := by
  rcases Delete_cases hm.wf hashFn key with ⟨h1, _⟩ | ⟨d, e, m1, _, _, he, hke, h1, how, _⟩
  · rw [h1] at h
    cases h
    exact hu
  · rw [h1] at h
    cases h
    exact Uniq_overwrite hu how (Or.inl ⟨e, he, hke⟩)

theorem Uniq_step {hashFn : String → Nat} {m m' : fixedHashMap V} (hm : Inv hashFn m)
    (hu : Uniq m.els) {c : Call V} {a : Answer V} (h : step hashFn m c = Res.ret (a, m')) :
    Uniq m'.els := by
  cases c with
  | Set key value =>
    obtain ⟨b, hb, _⟩ := step_Set_ret h
    exact Uniq_Set hm hu hb
  | Get key =>
    obtain ⟨v, _, _, rfl⟩ := step_Get_ret h
    exact hu
  | Delete key =>
    obtain ⟨v, hv, _⟩ := step_Delete_ret h
    exact Uniq_Delete hm hu hv
  | Load =>
    obtain ⟨_, rfl⟩ := step_Load_ret h
    exact hu

theorem Uniq_run {hashFn : String → Nat} :
    ∀ (cs : List (Call V)) (m m' : fixedHashMap V) (as : List (Answer V)),
      Inv hashFn m → Uniq m.els → run hashFn m cs = Res.ret (as, m') → Uniq m'.els := by
  intro cs
  induction cs with
  | nil =>
    intro m m' as _ hu h
    rw [run] at h
    cases h
    exact hu
  | cons c cs ih =>
    intro m m' as hm hu h
    obtain ⟨a, m1, as1, hs, hr, _⟩ := run_cons_ret h
    exact ih m1 m' as1 (Inv_step hm hs) (Uniq_step hm hu hs) hr

theorem Uniq_New (c : Nat) : Uniq (New c : fixedHashMap V).els := by
  intro i j e1 e2 hi
  simp only [New, List.getElem?_replicate] at hi
  split_ifs at hi
  cases hi

theorem Reachable.uniq {hashFn : String → Nat} {m : fixedHashMap V}
    (h : Reachable hashFn m) : Uniq m.els := by
  obtain ⟨c, cs, as, h0, hU, hr⟩ := h
  exact Uniq_run cs _ _ as (Inv_New hashFn h0 hU) (Uniq_New c) hr

/-! ## The claims, continued -/

/-- The answer of `Set` when the probe stopped at a slot: false exactly when
the count equals the capacity. -/
theorem Set_answer_of_stop {m : fixedHashMap V} (hm : WF m) {hashFn : String → Nat}
    {key : String} (value : Option V) {d : Nat}
    (hstop : Stops m.els key (probe (home hashFn m key) m.capacity d))
    (hf : m.find hashFn key
      = Res.ret ((probe (home hashFn m key) m.capacity d : Nat) : Int))
    (hset : m.n ≠ m.capacity → ∃ m1, m.Set hashFn key value = Res.ret (true, m1)) :
    ∃ b m' r, m.Set hashFn key value = Res.ret (b, m') ∧ m.find hashFn key = Res.ret r
      ∧ (r = -1 ↔ ∀ i, i < m.capacity → Skips m.els key i)
      ∧ (b = false ↔ (m.n = m.capacity ∨ r = -1)) := by
  have hnot : ¬ ∀ i, i < m.capacity → Skips m.els key i :=
    fun hall => Skips_not_Stops (hall _ (probe_lt hm.pos d)) hstop
  have hr1 : (((probe (home hashFn m key) m.capacity d : Nat) : Int) = -1
      ↔ ∀ i, i < m.capacity → Skips m.els key i) :=
    ⟨fun h => absurd h (natCast_ne_neg_one _), fun h => absurd h hnot⟩
  by_cases hn : m.n = m.capacity
  · exact ⟨false, m, _, Set_maxLoad hashFn key value hn, hf, hr1,
      ⟨fun _ => Or.inl hn, fun _ => rfl⟩⟩
  · obtain ⟨m1, h1⟩ := hset hn
    refine ⟨true, m1, _, h1, hf, hr1, ⟨(fun h => by cases h), fun h => ?_⟩⟩
    rcases h with h | h
    · exact absurd h hn
    · exact absurd h (natCast_ne_neg_one _)

/-- C11 (Set failure condition).  On every reachable table, for every key and
value, `Set` returns a boolean; `find` returns `-1` exactly when every slot is
taken by another key; and `Set` returns false exactly when the count equals
the capacity or `find` returned `-1` (so with `n == capacity` it fails whether
or not the key is in the table), and true in every other case. -/
theorem C11_set_failure_condition (hashFn : String → Nat) (m : fixedHashMap V) (key : String)
    (value : Option V) (hr : Reachable hashFn m) :
    ∃ b m' r, m.Set hashFn key value = Res.ret (b, m') ∧ m.find hashFn key = Res.ret r
      ∧ (r = -1 ↔ ∀ i, i < m.capacity → Skips m.els key i)
      ∧ (b = false ↔ (m.n = m.capacity ∨ r = -1)) := by
  have hm := hr.inv.wf
  rcases find_cases hm hashFn key with ⟨d, e, _, _, he, hke, hf⟩ | ⟨d, _, _, he, hf⟩
    | ⟨hall, hf⟩
  · exact Set_answer_of_stop hm value (Or.inr ⟨e, he, hke⟩) hf
      (fun hn => ⟨_, Set_found value hn hf he⟩)
  · exact Set_answer_of_stop hm value (Or.inl he) hf (fun hn => ⟨_, Set_nil value hn hf he⟩)
  · exact ⟨false, m, -1, Set_full value hf, hf, ⟨fun _ => hall, fun _ => rfl⟩,
      ⟨fun _ => Or.inr rfl, fun _ => rfl⟩⟩

theorem C11_set_failure_condition_witness :
    Reachable String.length
      ({ els := [some ⟨"bb", some 2, false⟩, some ⟨"a", some 1, false⟩], n := 2,
         capacity := 2 } : fixedHashMap Nat)
    ∧ ∃ b m' r,
      ({ els := [some ⟨"bb", some 2, false⟩, some ⟨"a", some 1, false⟩], n := 2,
         capacity := 2 } : fixedHashMap Nat).Set String.length "a" (some 5) = Res.ret (b, m')
      ∧ ({ els := [some ⟨"bb", some 2, false⟩, some ⟨"a", some 1, false⟩], n := 2,
           capacity := 2 } : fixedHashMap Nat).find String.length "a" = Res.ret r
      ∧ (r = -1 ↔ ∀ i, i < 2 →
          Skips [some (⟨"bb", some 2, false⟩ : element Nat), some ⟨"a", some 1, false⟩] "a" i)
      ∧ (b = false ↔ ((2 : Nat) = 2 ∨ r = -1)) :=
  have hr : Reachable String.length
      ({ els := [some ⟨"bb", some 2, false⟩, some ⟨"a", some 1, false⟩], n := 2,
         capacity := 2 } : fixedHashMap Nat) :=
    ⟨2, [Call.Set "a" (some 1), Call.Set "bb" (some 2)], [Answer.bool true, Answer.bool true],
      by decide, by decide, by decide⟩
  ⟨hr, C11_set_failure_condition String.length _ "a" (some 5) hr⟩

/-- C12 (Set write footprint).  On every table, whenever `Set` returns: if it
returned false, the table (every slot and the count) is unchanged; if it
returned true, `find` returned an index `i`, the slot array has the same
length, and every slot other than `i` is the same as before. -/
theorem C12_set_write_footprint (hashFn : String → Nat) (m m' : fixedHashMap V) (key : String)
    (value : Option V) (b : Bool) (h : m.Set hashFn key value = Res.ret (b, m')) :
    (b = false → m'.els = m.els ∧ m'.n = m.n ∧ m' = m)
    ∧ (b = true → ∃ i : Nat, m.find hashFn key = Res.ret (i : Int)
        ∧ m'.els.length = m.els.length ∧ ∀ j, j ≠ i → m'.els[j]? = m.els[j]?) := by
  rcases Set_ret h with ⟨hb, rfl⟩ | ⟨hb, i, hf, _, how⟩
  · exact ⟨fun _ => ⟨rfl, rfl, rfl⟩, fun h1 => by rw [hb] at h1; cases h1⟩
  · refine ⟨(fun h1 => by rw [hb] at h1; cases h1), fun _ => ⟨i, hf, ?_, fun j hj => ?_⟩⟩
    · rw [how.2, List.length_set]
    · exact getElem?_overwrite_ne how (fun h1 => hj h1.symm)

theorem C12_set_write_footprint_witness :
    (New 2 : fixedHashMap Nat).Set String.length "a" (some 7)
        = Res.ret (true, { els := [none, some ⟨"a", some 7, false⟩], n := 1, capacity := 2 })
    ∧ ((true = false →
          ({ els := [none, some ⟨"a", some 7, false⟩], n := 1, capacity := 2 }
            : fixedHashMap Nat).els = (New 2 : fixedHashMap Nat).els
          ∧ ({ els := [none, some ⟨"a", some 7, false⟩], n := 1, capacity := 2 }
              : fixedHashMap Nat).n = (New 2 : fixedHashMap Nat).n
          ∧ ({ els := [none, some ⟨"a", some 7, false⟩], n := 1, capacity := 2 }
              : fixedHashMap Nat) = New 2)
      ∧ (true = true → ∃ i : Nat,
          (New 2 : fixedHashMap Nat).find String.length "a" = Res.ret (i : Int)
          ∧ ({ els := [none, some ⟨"a", some 7, false⟩], n := 1, capacity := 2 }
              : fixedHashMap Nat).els.length = (New 2 : fixedHashMap Nat).els.length
          ∧ ∀ j, j ≠ i →
              ({ els := [none, some ⟨"a", some 7, false⟩], n := 1, capacity := 2 }
                : fixedHashMap Nat).els[j]? = (New 2 : fixedHashMap Nat).els[j]?)) :=
  ⟨by decide, C12_set_write_footprint String.length (New 2) _ "a" (some 7) true (by decide)⟩

/-- C13 (key uniqueness).  For every capacity `0 < c < 2 ^ 32`, hash function
and sequence of calls from `New c`: the calls all return, and in the table
reached no two distinct slots hold elements (deleted or not) with the same
key. -/
theorem C13_key_uniqueness (hashFn : String → Nat) (c : Nat) (cs : List (Call V))
    (h0 : 0 < c) (hU : c < U32) :
    ∃ as m, run hashFn (New c) cs = Res.ret (as, m)
      ∧ ∀ (i j : Nat) (e1 e2 : element V), m.els[i]? = some (some e1) →
          m.els[j]? = some (some e2) → e1.key = e2.key → i = j := by
  have hI : Inv hashFn (New c : fixedHashMap V) := Inv_New hashFn h0 hU
  obtain ⟨as, m, hrun⟩ := run_total hashFn cs (New c) hI
  exact ⟨as, m, hrun, Uniq_run cs _ _ as hI (Uniq_New c) hrun⟩

theorem C13_key_uniqueness_witness :
    (0 < 3 ∧ 3 < U32)
    ∧ ∃ as m, run String.length (New 3 : fixedHashMap Nat)
          [Call.Set "a" (some 1), Call.Set "b" (some 2), Call.Delete "a",
            Call.Set "a" (some 3), Call.Load] = Res.ret (as, m)
      ∧ ∀ (i j : Nat) (e1 e2 : element Nat), m.els[i]? = some (some e1) →
          m.els[j]? = some (some e2) → e1.key = e2.key → i = j :=
  ⟨⟨by decide, by decide⟩, C13_key_uniqueness String.length 3 _ (by decide) (by decide)⟩

/-- C14 (slot permanence).  On every table, whenever a `Set`, `Get`, `Delete`
or `Load` call returns: a slot that held an element before the call holds an
element with the same key after it; and if that element was marked deleted
before and is not after, the call was `Set` of that very key. -/
theorem C14_slot_permanence (hashFn : String → Nat) (m m' : fixedHashMap V) (c : Call V)
    (a : Answer V) (i : Nat) (e : element V) (h : step hashFn m c = Res.ret (a, m'))
    (he : m.els[i]? = some (some e)) :
    ∃ e', m'.els[i]? = some (some e') ∧ e'.key = e.key
      ∧ (e.deleted = true → e'.deleted = false → ∃ v, c = Call.Set e.key v) :=
  step_keeps_slot h he

theorem C14_slot_permanence_witness :
    (step String.length
        ({ els := [none, some ⟨"a", none, true⟩], n := 0, capacity := 2 } : fixedHashMap Nat)
        (Call.Set "a" (some 4))
      = Res.ret (Answer.bool true,
          { els := [none, some ⟨"a", some 4, false⟩], n := 0, capacity := 2 })
      ∧ ([none, some (⟨"a", none, true⟩ : element Nat)])[1]? = some (some ⟨"a", none, true⟩))
    ∧ ∃ e', ({ els := [none, some ⟨"a", some 4, false⟩], n := 0, capacity := 2 }
              : fixedHashMap Nat).els[1]? = some (some e')
        ∧ e'.key = "a"
        ∧ (true = true → e'.deleted = false →
            ∃ v, (Call.Set "a" (some 4) : Call Nat) = Call.Set "a" v) :=
  ⟨⟨by decide, by decide⟩,
    C14_slot_permanence String.length
      { els := [none, some ⟨"a", none, true⟩], n := 0, capacity := 2 }
      { els := [none, some ⟨"a", some 4, false⟩], n := 0, capacity := 2 }
      (Call.Set "a" (some 4)) (Answer.bool true) 1 ⟨"a", none, true⟩ (by decide) (by decide)⟩

/-! ## The indices inspected by `find` -/

theorem findLoopTrace_fst {els : List (Option (element V))} {cap : Nat} {key : String}
    {start : Nat} :
    ∀ (fuel idx : Nat),
      (findLoopTrace els cap key start fuel idx).1 = findLoop els cap key start fuel idx := by
  intro fuel
  induction fuel with
  | zero => intro idx; rfl
  | succ fuel ih =>
    intro idx
    rw [findLoopTrace, findLoop]
    split
    · rfl
    · rfl
    · rename_i el _
      by_cases hk : el.key = key
      · rw [if_pos hk, if_pos hk]
      · rw [if_neg hk, if_neg hk]
        dsimp only
        split_ifs
        · rfl
        · exact ih _

theorem findTrace_fst (m : fixedHashMap V) (hashFn : String → Nat) (key : String) :
    (m.findTrace hashFn key).1 = m.find hashFn key := by
  simp only [fixedHashMap.findTrace, fixedHashMap.find]
  split_ifs
  · rfl
  · exact findLoopTrace_fst _ _

theorem findLoopTrace_stops {els : List (Option (element V))} {cap : Nat} {key : String}
    {start : Nat} (hs : start < cap) (hU : cap < U32) :
    ∀ (j d fuel : Nat), d + j < cap → j < fuel →
      (∀ d', d ≤ d' → d' < d + j → Skips els key (probe start cap d')) →
      Stops els key (probe start cap (d + j)) →
      (findLoopTrace els cap key start fuel (probe start cap d)).2
        = (List.range' d (j + 1)).map (probe start cap) := by
  intro j
  induction j with
  | zero =>
    intro d fuel _ hf _ hstop
    obtain ⟨f, rfl⟩ : ∃ f, fuel = f + 1 := ⟨fuel - 1, by omega⟩
    rw [Nat.add_zero] at hstop
    rcases hstop with h | ⟨e, h, hk⟩
    · simp [findLoopTrace, h]
    · simp [findLoopTrace, h, hk]
  | succ j ih =>
    intro d fuel hd hf hskip hstop
    obtain ⟨f, rfl⟩ : ∃ f, fuel = f + 1 := ⟨fuel - 1, by omega⟩
    obtain ⟨e, he, hk⟩ := hskip d (Nat.le_refl d) (by omega)
    have hne : probe start cap (d + 1) ≠ start := probe_ne_start hs (by omega) (by omega)
    have hnext := ih (d + 1) f (by omega) (by omega)
      (fun d' h1 h2 => hskip d' (by omega) (by omega))
      (by rw [show d + 1 + j = d + (j + 1) by omega]; exact hstop)
    rw [List.range'_succ, List.map_cons]
    simp only [findLoopTrace, he, hk, if_false, probe_succ hU (by omega : d < cap), hne]
    rw [hnext]

theorem findLoopTrace_exhausts {els : List (Option (element V))} {cap : Nat} {key : String}
    {start : Nat} (hs : start < cap) (hU : cap < U32) :
    ∀ (j d fuel : Nat), d + j + 1 = cap → j < fuel →
      (∀ d', d ≤ d' → d' < cap → Skips els key (probe start cap d')) →
      (findLoopTrace els cap key start fuel (probe start cap d)).2
        = (List.range' d (j + 1)).map (probe start cap) := by
  intro j
  induction j with
  | zero =>
    intro d fuel hd hf hskip
    obtain ⟨f, rfl⟩ : ∃ f, fuel = f + 1 := ⟨fuel - 1, by omega⟩
    obtain ⟨e, he, hk⟩ := hskip d (Nat.le_refl d) (by omega)
    have hnext : probe start cap (d + 1) = start := by
      rw [show d + 1 = cap by omega]; exact probe_cap hs
    simp [findLoopTrace, he, hk, probe_succ hU (by omega : d < cap), hnext]
  | succ j ih =>
    intro d fuel hd hf hskip
    obtain ⟨f, rfl⟩ : ∃ f, fuel = f + 1 := ⟨fuel - 1, by omega⟩
    obtain ⟨e, he, hk⟩ := hskip d (Nat.le_refl d) (by omega)
    have hne : probe start cap (d + 1) ≠ start := probe_ne_start hs (by omega) (by omega)
    have hnext := ih (d + 1) f (by omega) (by omega) (fun d' h1 h2 => hskip d' (by omega) h2)
    rw [List.range'_succ, List.map_cons]
    simp only [findLoopTrace, he, hk, if_false, probe_succ hU (by omega : d < cap), hne]
    rw [hnext]

/-- On a well-formed table `find` returns after reading the slots at the
first `k` probe positions, `1 ≤ k ≤ capacity`, and more fuel changes nothing. -/
theorem findTrace_spec {m : fixedHashMap V} (hm : WF m) (hashFn : String → Nat)
    (key : String) :
    ∃ (r : Int) (k : Nat), m.find hashFn key = Res.ret r ∧ 1 ≤ k ∧ k ≤ m.capacity
      ∧ (m.findTrace hashFn key).2
          = (List.range k).map (probe (home hashFn m key) m.capacity)
      ∧ ∀ fuel, m.capacity ≤ fuel →
          findLoop m.els m.capacity key (home hashFn m key) fuel (home hashFn m key)
            = Res.ret r := by
  have hs := home_lt hashFn hm key
  have hc : m.capacity ≠ 0 := Nat.pos_iff_ne_zero.mp hm.pos
  have htr : (m.findTrace hashFn key).2
      = (findLoopTrace m.els m.capacity key (home hashFn m key) m.capacity
          (probe (home hashFn m key) m.capacity 0)).2 := by
    rw [probe_zero hs]
    simp only [fixedHashMap.findTrace, hc, if_false]
    rfl
  have stop_case : ∀ d, d < m.capacity →
      (∀ d', d' < d → Skips m.els key (probe (home hashFn m key) m.capacity d')) →
      Stops m.els key (probe (home hashFn m key) m.capacity d) →
      m.find hashFn key
        = Res.ret ((probe (home hashFn m key) m.capacity d : Nat) : Int) →
      ∃ (r : Int) (k : Nat), m.find hashFn key = Res.ret r ∧ 1 ≤ k ∧ k ≤ m.capacity
        ∧ (m.findTrace hashFn key).2
            = (List.range k).map (probe (home hashFn m key) m.capacity)
        ∧ ∀ fuel, m.capacity ≤ fuel →
            findLoop m.els m.capacity key (home hashFn m key) fuel (home hashFn m key)
              = Res.ret r := by
    intro d hd hskip hstop hf
    refine ⟨_, d + 1, hf, by omega, by omega, ?_, fun fuel hfuel => ?_⟩
    · rw [htr, List.range_eq_range']
      have := @findLoopTrace_stops V m.els m.capacity key _ hs hm.lt d 0 m.capacity
        (by omega) hd (fun d' _ h2 => hskip d' (by omega)) (by rw [Nat.zero_add]; exact hstop)
      exact this
    · have := @findLoop_stops V m.els m.capacity key _ hs hm.lt d 0 fuel
        (by omega) (by omega) (fun d' _ h2 => hskip d' (by omega))
        (by rw [Nat.zero_add]; exact hstop)
      rw [probe_zero hs, Nat.zero_add] at this
      exact this
  rcases find_cases hm hashFn key with ⟨d, e, hd, hskip, he, hke, hf⟩ | ⟨d, hd, hskip, he, hf⟩
    | ⟨hall, hf⟩
  · exact stop_case d hd hskip (Or.inr ⟨e, he, hke⟩) hf
  · exact stop_case d hd hskip (Or.inl he) hf
  · refine ⟨-1, m.capacity, hf, hm.pos, Nat.le_refl _, ?_, fun fuel hfuel => ?_⟩
    · rw [htr, List.range_eq_range']
      have := @findLoopTrace_exhausts V m.els m.capacity key _ hs hm.lt (m.capacity - 1) 0
        m.capacity (by have := hm.pos; omega) (by have := hm.pos; omega)
        (fun d' _ _ => hall _ (probe_lt hm.pos d'))
      rw [show m.capacity - 1 + 1 = m.capacity by have := hm.pos; omega] at this
      exact this
    · have := @findLoop_exhausts V m.els m.capacity key _ hs hm.lt (m.capacity - 1) 0
        fuel (by have := hm.pos; omega) (by have := hm.pos; omega)
        (fun d' _ _ => hall _ (probe_lt hm.pos d'))
      rw [probe_zero hs] at this
      exact this

theorem nodup_probe_range {s cap k : Nat} (hs : s < cap) (hk : k ≤ cap) :
    ((List.range k).map (probe s cap)).Nodup := by
  apply List.Nodup.map_on _ (List.nodup_range k)
  intro x hx y hy hxy
  rw [List.mem_range] at hx hy
  exact probe_inj hs (by omega) (by omega) hxy

theorem lt_length_of_Stops {els : List (Option (element V))} {key : String} {i : Nat}
    (h : Stops els key i) : i < els.length := by
  rcases h with h | ⟨e, h, _⟩
  · exact (List.getElem?_eq_some.mp h).1
  · exact (List.getElem?_eq_some.mp h).1

/-- C17 (no panics under normal use).  For every capacity `0 < c < 2 ^ 32`,
hash function and sequence of `Set`, `Get`, `Delete` and `Load` calls from
`New c`: every call returns (no panic, no loop cut off), and in the table
reached the divisor `capacity` of `find` is not zero, the slot array has
`capacity` slots, and for every key `find` returns, reads the slot array only
at indices below its length, and returns `-1` or an index below its length. -/
theorem C17_no_panic (hashFn : String → Nat) (c : Nat) (cs : List (Call V))
    (h0 : 0 < c) (hU : c < U32) :
    ∃ as m, run hashFn (New c) cs = Res.ret (as, m)
      ∧ m.capacity ≠ 0 ∧ m.els.length = m.capacity
      ∧ ∀ key, ∃ r, m.find hashFn key = Res.ret r
          ∧ (∀ idx, idx ∈ (m.findTrace hashFn key).2 → idx < m.els.length)
          ∧ (r = -1 ∨ ∃ i : Nat, r = (i : Int) ∧ i < m.els.length) := by
  have hI : Inv hashFn (New c : fixedHashMap V) := Inv_New hashFn h0 hU
  obtain ⟨as, m, hrun⟩ := run_total hashFn cs (New c) hI
  have hm := (Inv_run cs _ _ as hI hrun).wf
  refine ⟨as, m, hrun, Nat.pos_iff_ne_zero.mp hm.pos, hm.len, fun key => ?_⟩
  obtain ⟨r, k, hf, _, _, htr, _⟩ := findTrace_spec hm hashFn key
  refine ⟨r, hf, fun idx hidx => ?_, ?_⟩
  · rw [htr, List.mem_map] at hidx
    obtain ⟨d, _, rfl⟩ := hidx
    rw [hm.len]
    exact probe_lt hm.pos d
  · rcases find_ret hf with h1 | ⟨i, hi, hstop⟩
    · exact Or.inl h1
    · exact Or.inr ⟨i, hi, lt_length_of_Stops hstop⟩

theorem C17_no_panic_witness :
    (0 < 2 ∧ 2 < U32)
    ∧ ∃ as m, run String.length (New 2 : fixedHashMap Nat)
          [Call.Set "a" (some 1), Call.Load, Call.Get "zz", Call.Delete "a", Call.Delete "a",
            Call.Set "b" none] = Res.ret (as, m)
      ∧ m.capacity ≠ 0 ∧ m.els.length = m.capacity
      ∧ ∀ key, ∃ r, m.find String.length key = Res.ret r
          ∧ (∀ idx, idx ∈ (m.findTrace String.length key).2 → idx < m.els.length)
          ∧ (r = -1 ∨ ∃ i : Nat, r = (i : Int) ∧ i < m.els.length) :=
  ⟨⟨by decide, by decide⟩, C17_no_panic String.length 2 _ (by decide) (by decide)⟩

/-- What the operations do on the table that `New 0` returns, for every hash
function and key: `find`, `Get` and `Delete` end in the panic of the division
by the zero capacity, and `Set` returns false at the max-load check. -/
theorem zero_capacity_table (hashFn : String → Nat) (key : String) (value : Option V) :
    (New 0 : fixedHashMap V) = { els := [], n := 0, capacity := 0 }
    ∧ (New 0 : fixedHashMap V).find hashFn key = Res.panic
    ∧ (New 0 : fixedHashMap V).Get hashFn key = Res.panic
    ∧ (New 0 : fixedHashMap V).Delete hashFn key = Res.panic
    ∧ (New 0 : fixedHashMap V).Set hashFn key value = Res.ret (false, New 0) := by
  refine ⟨rfl, ?_, ?_, ?_, ?_⟩
  · simp [fixedHashMap.find, New]
  · simp [fixedHashMap.Get, fixedHashMap.find, New]
  · simp [fixedHashMap.Delete, fixedHashMap.find, New]
  · simp [fixedHashMap.Set, New]

/-- C18 (zero capacity is rejected): the code at the failing input.  `New(0)`
does not fail: it returns the table with no slots and capacity `0`; and for
every hash function `Get("a")` on that table panics on the division by the
zero capacity in `find`, as does `Delete("a")`, instead of returning a value
or nil. -/
theorem C18_get_on_New_zero_panics (hashFn : String → Nat) :
    (New 0 : fixedHashMap Nat) = { els := [], n := 0, capacity := 0 }
    ∧ (New 0 : fixedHashMap Nat).Get hashFn "a" = Res.panic
    ∧ (New 0 : fixedHashMap Nat).Delete hashFn "a" = Res.panic := by
  refine ⟨rfl, ?_, ?_⟩
  · simp [fixedHashMap.Get, fixedHashMap.find, New]
  · simp [fixedHashMap.Delete, fixedHashMap.find, New]

/-- C19 (probe correctness).  On every reachable table, for every key:
(i) if a slot `i` holds the key, `find` returns `i`; (ii) if no slot holds the
key and some slot is nil, `find` returns the first nil slot in cyclic order
from `hash(key) mod capacity` (every slot probed before it is taken);
(iii) if no slot holds the key and every slot is taken, `find` returns `-1`;
and `find` returns `-1` exactly when every slot is taken by another key. -/
theorem C19_probe_correctness (hashFn : String → Nat) (m : fixedHashMap V) (key : String)
    (hr : Reachable hashFn m) :
    (∀ (i : Nat) (e : element V), m.els[i]? = some (some e) → e.key = key →
        m.find hashFn key = Res.ret (i : Int))
    ∧ (NoKey m.els key → (∃ i : Nat, m.els[i]? = some none) →
        ∃ d, d < m.capacity
          ∧ m.find hashFn key
              = Res.ret ((probe (hashFn key % U32 % m.capacity) m.capacity d : Nat) : Int)
          ∧ m.els[probe (hashFn key % U32 % m.capacity) m.capacity d]? = some none
          ∧ ∀ d', d' < d →
              ∃ e, m.els[probe (hashFn key % U32 % m.capacity) m.capacity d']?
                = some (some e))
    ∧ (NoKey m.els key → (∀ i, i < m.capacity → ∃ e, m.els[i]? = some (some e)) →
        m.find hashFn key = Res.ret (-1))
    ∧ (m.find hashFn key = Res.ret (-1) ↔ ∀ i, i < m.capacity → Skips m.els key i) := by
  have hm := hr.inv
  have hu := hr.uniq
  have hcases := find_cases hm.wf hashFn key
  unfold home at hcases
  refine ⟨fun i e hi hk => ?_, fun hno hnil => ?_, fun hno hfull => ?_, ?_, ?_⟩
  · have hlt : i < m.capacity := by
      rw [← hm.wf.len]; exact (List.getElem?_eq_some.mp hi).1
    rcases hcases with ⟨d, e1, _, _, he1, hk1, hf⟩ | ⟨d, hd, hskip, he, _⟩ | ⟨hall, _⟩
    · rw [hf, hu _ i e1 e he1 hi (hk1.trans hk.symm)]
    · exact absurd hk (noKey_of_nil hm hd hskip he i e hi)
    · obtain ⟨e1, he1, hne⟩ := hall i hlt
      rw [hi] at he1
      cases he1
      exact absurd hk hne
  · rcases hcases with ⟨d, e1, _, _, he1, hk1, _⟩ | ⟨d, hd, hskip, he, hf⟩ | ⟨hall, _⟩
    · exact absurd hk1 (hno _ e1 he1)
    · exact ⟨d, hd, hf, he, fun d' hd' => by
        obtain ⟨e, he', _⟩ := hskip d' hd'
        exact ⟨e, he'⟩⟩
    · obtain ⟨i, hi⟩ := hnil
      have hlt : i < m.capacity := by
        rw [← hm.wf.len]; exact (List.getElem?_eq_some.mp hi).1
      obtain ⟨e1, he1, _⟩ := hall i hlt
      rw [hi] at he1
      cases he1
  · rcases hcases with ⟨d, e1, _, _, he1, hk1, _⟩ | ⟨d, hd, _, he, _⟩ | ⟨_, hf⟩
    · exact absurd hk1 (hno _ e1 he1)
    · obtain ⟨e, he'⟩ := hfull _ (probe_lt hm.wf.pos d)
      rw [he] at he'
      cases he'
    · exact hf
  · intro hf
    rcases hcases with ⟨d, e1, _, _, _, _, hf1⟩ | ⟨d, _, _, _, hf1⟩ | ⟨hall, _⟩
    · rw [hf1] at hf
      exact absurd (Res.ret.inj hf) (natCast_ne_neg_one _)
    · rw [hf1] at hf
      exact absurd (Res.ret.inj hf) (natCast_ne_neg_one _)
    · exact hall
  · exact find_of_skips hm.wf hashFn key

theorem C19_probe_correctness_witness :
    Reachable String.length
      ({ els := [none, some ⟨"a", some 1, false⟩, some ⟨"b", none, true⟩], n := 1,
         capacity := 3 } : fixedHashMap Nat)
    ∧ ({ els := [none, some ⟨"a", some 1, false⟩, some ⟨"b", none, true⟩], n := 1,
         capacity := 3 } : fixedHashMap Nat).find String.length "b" = Res.ret ((2 : Nat) : Int) :=
  have hr : Reachable String.length
      ({ els := [none, some ⟨"a", some 1, false⟩, some ⟨"b", none, true⟩], n := 1,
         capacity := 3 } : fixedHashMap Nat) :=
    ⟨3, [Call.Set "a" (some 1), Call.Set "b" (some 2), Call.Delete "b"],
      [Answer.bool true, Answer.bool true, Answer.value none], by decide, by decide, by decide⟩
  ⟨hr, (C19_probe_correctness String.length _ "b" hr).1 2 ⟨"b", none, true⟩ (by decide) rfl⟩

/-- C20 (probe termination).  For every table with `capacity` slots,
`0 < capacity < 2 ^ 32`, whatever the slots hold, every hash function and
key: `find` returns; it reads the slot array at the indices
`(start + d) mod capacity` for `d = 0, ..., k - 1` in this order, where
`start = hash(key) mod capacity` and `1 ≤ k ≤ capacity`; no index is read
twice; and the loop returns the same with any fuel of at least `capacity`. -/
theorem C20_probe_termination (hashFn : String → Nat) (m : fixedHashMap V) (key : String)
    (hlen : m.els.length = m.capacity) (h0 : 0 < m.capacity) (hU : m.capacity < U32) :
    ∃ (r : Int) (k : Nat), m.find hashFn key = Res.ret r
      ∧ (m.findTrace hashFn key).1 = Res.ret r
      ∧ 1 ≤ k ∧ k ≤ m.capacity
      ∧ (m.findTrace hashFn key).2
          = (List.range k).map (fun d => (hashFn key % U32 % m.capacity + d) % m.capacity)
      ∧ (m.findTrace hashFn key).2.length ≤ m.capacity
      ∧ (m.findTrace hashFn key).2.Nodup
      ∧ ∀ fuel, m.capacity ≤ fuel →
          findLoop m.els m.capacity key (hashFn key % U32 % m.capacity) fuel
            (hashFn key % U32 % m.capacity) = Res.ret r := by
  have hm : WF m := ⟨hlen, h0, hU⟩
  obtain ⟨r, k, hf, hk1, hk2, htr, hfuel⟩ := findTrace_spec hm hashFn key
  refine ⟨r, k, hf, by rw [findTrace_fst, hf], hk1, hk2, htr, ?_, ?_, hfuel⟩
  · rw [htr, List.length_map, List.length_range]
    exact hk2
  · rw [htr]
    exact nodup_probe_range (home_lt hashFn hm key) hk2

theorem C20_probe_termination_witness :
    ([some (⟨"x", some 1, false⟩ : element Nat), some ⟨"y", none, true⟩,
        some ⟨"x", none, false⟩].length = 3 ∧ 0 < 3 ∧ 3 < U32)
    ∧ ∃ (r : Int) (k : Nat),
      ({ els := [some ⟨"x", some 1, false⟩, some ⟨"y", none, true⟩, some ⟨"x", none, false⟩],
         n := 7, capacity := 3 } : fixedHashMap Nat).find String.length "abcd" = Res.ret r
      ∧ 1 ≤ k ∧ k ≤ 3
      ∧ ({ els := [some ⟨"x", some 1, false⟩, some ⟨"y", none, true⟩, some ⟨"x", none, false⟩],
           n := 7, capacity := 3 } : fixedHashMap Nat).findTrace String.length "abcd"
          = (Res.ret r, (List.range k).map (fun d => ("abcd".length % U32 % 3 + d) % 3)) :=
  ⟨⟨by decide, by decide, by decide⟩, by
    obtain ⟨r, k, hf, h1, hk1, hk2, htr, _⟩ := C20_probe_termination String.length
      ({ els := [some ⟨"x", some 1, false⟩, some ⟨"y", none, true⟩, some ⟨"x", none, false⟩],
         n := 7, capacity := 3 } : fixedHashMap Nat) "abcd" (by decide) (by decide) (by decide)
    exact ⟨r, k, hf, hk1, hk2, Prod.ext h1 htr⟩⟩

/-! ## Filling a table and deleting every key -/

theorem step_capacity {hashFn : String → Nat} {m m' : fixedHashMap V} {c : Call V}
    {a : Answer V} (h : step hashFn m c = Res.ret (a, m')) : m'.capacity = m.capacity := by
  cases c with
  | Set key value =>
    obtain ⟨b, hb, _⟩ := step_Set_ret h
    rcases Set_ret hb with ⟨_, rfl⟩ | ⟨_, j, _, _, how⟩
    · rfl
    · exact how.1
  | Get key =>
    obtain ⟨_, _, _, rfl⟩ := step_Get_ret h
    rfl
  | Delete key =>
    obtain ⟨v, hv, _⟩ := step_Delete_ret h
    rcases (Delete_ret hv).2 with rfl | ⟨j, e1, _, _, _, how⟩
    · rfl
    · exact how.1
  | Load =>
    obtain ⟨_, rfl⟩ := step_Load_ret h
    rfl

theorem HasKey_step {hashFn : String → Nat} {m m' : fixedHashMap V} {c : Call V}
    {a : Answer V} (h : step hashFn m c = Res.ret (a, m')) {key : String}
    (hk : HasKey m.els key) : HasKey m'.els key := by
  obtain ⟨i, e, he, hke⟩ := hk
  obtain ⟨e', he', hk', _⟩ := step_keeps_slot h he
  exact ⟨i, e', he', hk'.trans hke⟩

theorem HasKey_run {hashFn : String → Nat} {key : String} :
    ∀ (cs : List (Call V)) (m m' : fixedHashMap V) (as : List (Answer V)),
      run hashFn m cs = Res.ret (as, m') → HasKey m.els key → HasKey m'.els key := by
  intro cs
  induction cs with
  | nil =>
    intro m m' as h hk
    rw [run] at h
    cases h
    exact hk
  | cons c cs ih =>
    intro m m' as h hk
    obtain ⟨a, m1, as1, hs, hr, _⟩ := run_cons_ret h
    exact ih m1 m' as1 hr (HasKey_step hs hk)

/-- Every slot is taken by a key other than `key`, and stays so after a call. -/
theorem allSkips_step {hashFn : String → Nat} {m m' : fixedHashMap V} {c : Call V}
    {a : Answer V} (h : step hashFn m c = Res.ret (a, m')) {key : String}
    (hall : ∀ i, i < m.capacity → Skips m.els key i) :
    ∀ i, i < m'.capacity → Skips m'.els key i := by
  intro i hi
  rw [step_capacity h] at hi
  obtain ⟨e, he, hne⟩ := hall i hi
  obtain ⟨e', he', hk', _⟩ := step_keeps_slot h he
  exact ⟨e', he', by rw [hk']; exact hne⟩

theorem allSkips_run {hashFn : String → Nat} {key : String} :
    ∀ (cs : List (Call V)) (m m' : fixedHashMap V) (as : List (Answer V)),
      run hashFn m cs = Res.ret (as, m') → (∀ i, i < m.capacity → Skips m.els key i) →
      ∀ i, i < m'.capacity → Skips m'.els key i := by
  intro cs
  induction cs with
  | nil =>
    intro m m' as h hall
    rw [run] at h
    cases h
    exact hall
  | cons c cs ih =>
    intro m m' as h hall
    obtain ⟨a, m1, as1, hs, hr, _⟩ := run_cons_ret h
    exact ih m1 m' as1 hr (allSkips_step hs hall)

theorem Set_true_HasKey {m m' : fixedHashMap V} {hashFn : String → Nat} {key : String}
    {value : Option V} (h : m.Set hashFn key value = Res.ret (true, m')) :
    HasKey m'.els key := by
  rcases Set_ret h with ⟨hb, _⟩ | ⟨_, i, _, hstop, how⟩
  · cases hb
  · exact ⟨i, _, by rw [how.2, List.getElem?_set_self (lt_length_of_Stops hstop)], rfl⟩

theorem all_occupied_of_count {els : List (Option (element V))}
    (h : occupied els = els.length) :
    ∀ i, i < els.length → ∃ e, els[i]? = some (some e) := by
  intro i hi
  have hall := List.filter_length_eq_length.mp h
  have hmem : els[i] ∈ els := List.getElem_mem hi
  have hsome := hall _ hmem
  rw [List.getElem?_eq_getElem hi]
  cases hx : els[i] with
  | none => rw [hx] at hsome; cases hsome
  | some e => exact ⟨e, rfl⟩

theorem Delete_of_HasKey {m : fixedHashMap V} {hashFn : String → Nat} (hm : Inv hashFn m)
    {key : String} (hk : HasKey m.els key) :
    ∃ m', m.Delete hashFn key = Res.ret (none, m') ∧ m'.n = (m.n + U32 - 1) % U32
      ∧ m'.capacity = m.capacity := by
  obtain ⟨i, e0, hi, hk0⟩ := hk
  rcases find_cases hm.wf hashFn key with ⟨d, e, _, _, he, _, hf⟩ | ⟨d, hd, hskip, he, _⟩
    | ⟨hall, _⟩
  · exact ⟨_, Delete_found hf he, rfl, rfl⟩
  · exact absurd hk0 (noKey_of_nil hm hd hskip he i e0 hi)
  · have hlt : i < m.capacity := by
      rw [← hm.wf.len]; exact (List.getElem?_eq_some.mp hi).1
    obtain ⟨e1, he1, hne⟩ := hall i hlt
    rw [hi] at he1
    cases he1
    exact absurd hk0 hne

/-- Deleting keys that the table holds, one call each, while the count is at
least the number of calls: every `Delete` returns nil and takes one off the
count. -/
theorem run_deleteCalls (hashFn : String → Nat) :
    ∀ (ks : List String) (m : fixedHashMap V),
      Inv hashFn m → (∀ k, k ∈ ks → HasKey m.els k) → ks.length ≤ m.n → m.n < U32 →
      ∃ m', run hashFn m (deleteCalls ks)
            = Res.ret (List.replicate ks.length (Answer.value none), m')
        ∧ m'.n = m.n - ks.length ∧ m'.capacity = m.capacity ∧ Inv hashFn m' := by
  intro ks
  induction ks with
  | nil =>
    intro m hm _ _ _
    exact ⟨m, rfl, rfl, rfl, hm⟩
  | cons k ks ih =>
    intro m hm hk hlen hU
    simp only [List.length_cons] at hlen
    obtain ⟨m1, hdel, hn1, hc1⟩ := Delete_of_HasKey hm (hk k (List.mem_cons_self _ _))
    have hn1' : m1.n = m.n - 1 := by
      rw [hn1, show m.n + U32 - 1 = m.n - 1 + U32 by omega, Nat.add_mod_right]
      exact Nat.mod_eq_of_lt (by omega)
    have hstep : step hashFn m (Call.Delete k) = Res.ret (Answer.value none, m1) := by
      simp only [step, hdel]
    obtain ⟨m', hrun, hn', hc', hm'⟩ := ih m1 (Inv_Delete hm hdel)
      (fun k' hk' => HasKey_step hstep (hk k' (List.mem_cons_of_mem _ hk')))
      (by omega) (by omega)
    refine ⟨m', ?_, by rw [hn', hn1', List.length_cons]; omega, by rw [hc', hc1], hm'⟩
    have := run_cons_of hstep hrun
    simpa [deleteCalls, List.replicate_succ] using this

/-- Setting pairwise distinct fresh keys while there is room, with what the
table holds afterwards. -/
theorem run_setCalls_full (hashFn : String → Nat) :
    ∀ (kvs : List (String × Option V)) (m : fixedHashMap V),
      Inv hashFn m → occupied m.els = m.n → m.n + kvs.length ≤ m.capacity →
      (kvs.map Prod.fst).Nodup → (∀ p, p ∈ kvs → NoKey m.els p.1) →
      ∃ m', run hashFn m (setCalls kvs)
            = Res.ret (List.replicate kvs.length (Answer.bool true), m')
        ∧ m'.n = m.n + kvs.length ∧ m'.capacity = m.capacity ∧ Inv hashFn m'
        ∧ occupied m'.els = m'.n
        ∧ (∀ p, p ∈ kvs → HasKey m'.els p.1)
        ∧ (∀ k, k ∉ kvs.map Prod.fst → NoKey m.els k → NoKey m'.els k) := by
  intro kvs
  induction kvs with
  | nil =>
    intro m hm hocc _ _ _
    exact ⟨m, rfl, rfl, rfl, hm, hocc, by simp, fun _ _ h => h⟩
  | cons p kvs ih =>
    intro m hm hocc hroom hnd hno
    simp only [List.length_cons] at hroom
    simp only [List.map_cons, List.nodup_cons] at hnd
    obtain ⟨m1, hset, hm1, hocc1, hn1, hc1, hkeep⟩ :=
      Set_fresh hm hocc (by omega) (hno p (List.mem_cons_self _ _)) p.2
    have hno1 : ∀ q, q ∈ kvs → NoKey m1.els q.1 := by
      intro q hq
      apply hkeep q.1 _ (hno q (List.mem_cons_of_mem _ hq))
      intro heq
      exact hnd.1 (by rw [← heq]; exact List.mem_map_of_mem Prod.fst hq)
    obtain ⟨m', hrun, hn', hc', hm', hocc', hhas, hnk⟩ :=
      ih m1 hm1 hocc1 (by rw [hn1, hc1]; omega) hnd.2 hno1
    have hstep : step hashFn m (Call.Set p.1 p.2) = Res.ret (Answer.bool true, m1) := by
      simp only [step, hset]
    refine ⟨m', ?_, by rw [hn', hn1, List.length_cons]; omega, by rw [hc', hc1], hm', hocc',
      ?_, ?_⟩
    · have := run_cons_of hstep hrun
      simpa [setCalls, List.replicate_succ] using this
    · intro q hq
      rcases List.mem_cons.mp hq with rfl | hq
      · exact HasKey_run _ _ _ _ hrun (Set_true_HasKey hset)
      · exact hhas q hq
    · intro k hk hnok
      simp only [List.map_cons, List.mem_cons, not_or] at hk
      exact hnk k hk.2 (hkeep k hk.1 hnok)

/-- There are `N` pairwise distinct keys, for every `N`. -/
theorem exists_distinct_keys (N : Nat) :
    ∃ kvs : List (String × Option V), kvs.length = N ∧ (kvs.map Prod.fst).Nodup := by
  refine ⟨(List.range N).map (fun i => (String.mk (List.replicate i 'a'), none)), by simp, ?_⟩
  rw [List.map_map]
  apply List.Nodup.map _ (List.nodup_range N)
  intro i j hij
  have h1 : List.replicate i 'a' = List.replicate j 'a' := congrArg String.data hij
  have h2 := congrArg List.length h1
  simpa using h2

/-- C15 (insert then delete all).  For every `0 < N < 2 ^ 32`, every hash
function and every list of at most `N` pairwise distinct keys: from `New N`,
one `Set` per key followed by one `Delete` per key, in any order of the keys,
all return, and the table reached has count `0` and `Load()` equal to `0`. -/
theorem C15_insert_then_delete_all (hashFn : String → Nat) (N : Nat)
    (kvs : List (String × Option V)) (ds : List String) (h0 : 0 < N) (hU : N < U32)
    (hlen : kvs.length ≤ N) (hnd : (kvs.map Prod.fst).Nodup)
    (hperm : ds.Perm (kvs.map Prod.fst)) :
    ∃ m, run hashFn (New N) (setCalls kvs ++ deleteCalls ds)
          = Res.ret (List.replicate kvs.length (Answer.bool true)
              ++ List.replicate ds.length (Answer.value none), m)
      ∧ m.n = 0 ∧ m.Load = 0 := by
  obtain ⟨m1, hrun1, hn1, _, hm1, _, hhas, _⟩ := run_setCalls_full hashFn kvs (New N)
    (Inv_New hashFn h0 hU) (occupied_replicate N) (by simpa [New] using hlen) hnd
    (fun p _ => NoKey_New N p.1)
  have hn1' : m1.n = kvs.length := by rw [hn1]; simp [New]
  have hdlen : ds.length = kvs.length := by rw [hperm.length_eq, List.length_map]
  have hhasd : ∀ k, k ∈ ds → HasKey m1.els k := by
    intro k hk
    obtain ⟨p, hp, rfl⟩ := List.mem_map.mp (hperm.mem_iff.mp hk)
    exact hhas p hp
  obtain ⟨m2, hrun2, hn2, _, _⟩ := run_deleteCalls hashFn ds m1 hm1 hhasd (by omega) (by omega)
  have hn2' : m2.n = 0 := by omega
  refine ⟨m2, run_append_ret _ _ _ _ _ _ _ hrun1 hrun2, hn2', ?_⟩
  simp [fixedHashMap.Load, hn2']

theorem C15_insert_then_delete_all_witness :
    (0 < 3 ∧ 3 < U32 ∧ [("a", some 1), ("bb", some 2)].length ≤ 3
      ∧ ([("a", some 1), ("bb", some 2)].map Prod.fst).Nodup
      ∧ ["bb", "a"].Perm ([("a", some 1), ("bb", some 2)].map Prod.fst))
    ∧ ∃ m : fixedHashMap Nat,
        run String.length (New 3) (setCalls [("a", some 1), ("bb", some 2)]
            ++ deleteCalls ["bb", "a"])
          = Res.ret (List.replicate [("a", some 1), ("bb", some 2)].length (Answer.bool true)
              ++ List.replicate ["bb", "a"].length (Answer.value none), m)
        ∧ m.n = 0 ∧ m.Load = 0 :=
  ⟨⟨by decide, by decide, by decide, by decide, by decide⟩,
    C15_insert_then_delete_all String.length 3 [("a", some 1), ("bb", some 2)] ["bb", "a"]
      (by decide) (by decide) (by decide) (by decide) (by decide)⟩

/-- C16 (tombstone saturation).  For every `0 < N < 2 ^ 32` and every hash
function there are `N` pairwise distinct keys, and for any such keys: from
`New N`, one `Set` per key and then one `Delete` per key all return and reach
a table with count `0` and `Load()` equal to `0` on which, for every key not
among them, the max-load check of `Set` passes (`n ≠ capacity`), `find`
returns `-1`, and `Set` returns false; and after any further sequence of calls
`Set` of that key still returns false. -/
theorem C16_tombstone_saturation (hashFn : String → Nat) (N : Nat) (h0 : 0 < N)
    (hU : N < U32) :
    (∃ kvs : List (String × Option V), kvs.length = N ∧ (kvs.map Prod.fst).Nodup)
    ∧ ∀ kvs : List (String × Option V), kvs.length = N → (kvs.map Prod.fst).Nodup →
      ∃ as m, run hashFn (New N) (setCalls kvs ++ deleteCalls (kvs.map Prod.fst))
            = Res.ret (as, m)
        ∧ m.n = 0 ∧ m.Load = 0
        ∧ ∀ (key : String) (value : Option V), key ∉ kvs.map Prod.fst →
            m.n ≠ m.capacity ∧ m.find hashFn key = Res.ret (-1)
            ∧ m.Set hashFn key value = Res.ret (false, m)
            ∧ ∀ cs, ∃ as2 m2, run hashFn m cs = Res.ret (as2, m2)
                ∧ m2.Set hashFn key value = Res.ret (false, m2) := by
  refine ⟨exists_distinct_keys N, fun kvs hlen hnd => ?_⟩
  obtain ⟨m1, hrun1, hn1, hc1, hm1, hocc1, hhas, hnk⟩ := run_setCalls_full hashFn kvs (New N)
    (Inv_New hashFn h0 hU) (occupied_replicate N) (by simp [New, hlen]) hnd
    (fun p _ => NoKey_New N p.1)
  have hn1' : m1.n = N := by rw [hn1, hlen]; simp [New]
  have hc1' : m1.capacity = N := by rw [hc1]; rfl
  have hhasd : ∀ k, k ∈ kvs.map Prod.fst → HasKey m1.els k := by
    intro k hk
    obtain ⟨p, hp, rfl⟩ := List.mem_map.mp hk
    exact hhas p hp
  obtain ⟨m2, hrun2, hn2, hc2, hm2⟩ := run_deleteCalls hashFn (kvs.map Prod.fst) m1 hm1 hhasd
    (by rw [List.length_map]; omega) (by omega)
  have hn2' : m2.n = 0 := by rw [hn2, List.length_map]; omega
  have hc2' : m2.capacity = N := by rw [hc2, hc1']
  refine ⟨_, m2, run_append_ret _ _ _ _ _ _ _ hrun1 hrun2, hn2', by
    simp [fixedHashMap.Load, hn2'], fun key value hkey => ?_⟩
  have hfull1 : ∀ i, i < m1.capacity → Skips m1.els key i := by
    intro i hi
    obtain ⟨e, he⟩ := all_occupied_of_count (by rw [hocc1, hm1.wf.len, hn1', hc1'])
      i (by rw [hm1.wf.len]; exact hi)
    exact ⟨e, he, hnk key hkey (NoKey_New N key) i e he⟩
  have hfull2 := allSkips_run _ _ _ _ hrun2 hfull1
  have hf2 := find_of_skips hm2.wf hashFn key hfull2
  refine ⟨by rw [hn2', hc2']; omega, hf2, Set_full value hf2, fun cs => ?_⟩
  obtain ⟨as2, m3, hrun3⟩ := run_total hashFn cs m2 hm2
  have hfull3 := allSkips_run _ _ _ _ hrun3 hfull2
  exact ⟨as2, m3, hrun3,
    Set_full value (find_of_skips (Inv_run cs _ _ as2 hm2 hrun3).wf hashFn key hfull3)⟩

theorem C16_tombstone_saturation_witness :
    (0 < 2 ∧ 2 < U32)
    ∧ ∃ (as : List (Answer Nat)) (m : fixedHashMap Nat),
        run String.length (New 2)
            (setCalls [("a", some 1), ("b", some 2)] ++ deleteCalls ["a", "b"])
          = Res.ret (as, m)
        ∧ m.n = 0 ∧ m.Load = 0
        ∧ m.n ≠ m.capacity ∧ m.find String.length "c" = Res.ret (-1)
        ∧ m.Set String.length "c" (some 3) = Res.ret (false, m) :=
  ⟨⟨by decide, by decide⟩, by
    obtain ⟨as, m, hrun, hn, hl, hkey⟩ :=
      (C16_tombstone_saturation (V := Nat) String.length 2 (by decide) (by decide)).2
        [("a", some 1), ("b", some 2)] (by decide) (by decide)
    obtain ⟨h1, h2, h3, _⟩ := hkey "c" (some 3) (by decide)
    exact ⟨as, m, hrun, hn, hl, h1, h2, h3⟩⟩

end FixedHashMap
